import Mathlib

/-!
# ADMM-PD soft body solver (`extern/softbody/src/admmpd_solver.cpp`)

A shallow embedding of `admmpd::Solver`.

Conventions of the embedding

* `double` is the field `ℚ` (exact arithmetic): rounding, overflow and NaN are outside the model.
* `int` is `ℤ`; the loop counters of the source stay far below the `int` range.
* A dense `Eigen::MatrixXd` with `r` rows and three columns is `Matrix (Fin r) (Fin 3) ℚ`.
  The number of vertices `n` and the number of rows `nr` of the reduction operator `D`
  index the state `Data n nr`, so the per-vertex buffers of one state agree in size, as they
  do in every state built by `Solver::init`.
* A sparse matrix that the source fills with `setFromTriplets` and tests with `nonZeros()`
  (the constraint matrices `K[0..2]`) keeps its list of stored triplets.
* The collaborators whose code lies outside this file (`EnergyTerm`, `FloorCollider`,
  `Eigen::SimplicialLDLT`) are the fields of `Collaborators`, with the signatures of their
  call sites; every theorem holds for all of them unless it states a hypothesis on them.
* `BLI_task_parallel_range` over independent indices is a sequential loop over the range.
-/

namespace admmpd

/-- Dense matrix of `r` rows and three columns (`Eigen::MatrixXd` holding one row per vertex
or per reduced coordinate). -/
abbrev MatrixX3 (r : ℕ) := Matrix (Fin r) (Fin 3) ℚ

/-- Solver options (`admmpd::Options`), the fields read by `admmpd_solver.cpp`. -/
structure Options where
  timestep_s : ℚ
  max_admm_iters : ℤ
  max_cg_iters : ℤ
  mult_k : ℚ
  min_res : ℚ
  grav : Fin 3 → ℚ

/-- One `Eigen::Triplet<double>`: row, column, value. -/
structure Triplet where
  row : ℕ
  col : ℕ
  value : ℚ
deriving DecidableEq

/-- Sparse matrix in the form the solver uses for `K[i]`: its dimensions and the triplets
it was set from. -/
structure SparseMatrix where
  rows : ℕ
  cols : ℕ
  entries : List Triplet

namespace SparseMatrix

/-- Count of stored coefficients, `nonZeros()`: `setFromTriplets` merges the triplets of one
position into one stored coefficient (kept even when its value is zero). -/
def nonZeros (K : SparseMatrix) : ℕ :=
  ((K.entries.map fun t => (t.row, t.col)).dedup).length

/-- Coefficient at `(i, j)`: the sum of the triplets of that position. -/
def coeff (K : SparseMatrix) (i j : ℕ) : ℚ :=
  ((K.entries.filter fun t => t.row = i ∧ t.col = j).map Triplet.value).sum

/-- Result of `setZero()`: every stored coefficient removed, dimensions kept. -/
def setZero (K : SparseMatrix) : SparseMatrix :=
  { K with entries := [] }

/-- Dense view of the sparse matrix, read as a matrix with `n` columns. -/
def toMatrix (K : SparseMatrix) (n : ℕ) : Matrix (Fin K.rows) (Fin n) ℚ :=
  fun c i => K.coeff c i

end SparseMatrix

/-- Solver state (`admmpd::Data`) for `n` vertices and `nr` rows of `D`.
`ldltA` is the solve routine of the cached factorization; `Dx` carries its own row count
because `compute_matrices` sizes it by vertices and `init_solve` by rows of `D`. -/
structure Data (n nr : ℕ) where
  x : MatrixX3 n
  v : MatrixX3 n
  x_start : MatrixX3 n
  m : Fin n → ℚ
  z : MatrixX3 nr
  u : MatrixX3 nr
  M_xbar : MatrixX3 n
  Dx : (r : ℕ) × MatrixX3 r
  D : Matrix (Fin nr) (Fin n) ℚ
  Dt : Matrix (Fin n) (Fin nr) ℚ
  DtW2 : Matrix (Fin n) (Fin nr) ℚ
  A : Matrix (Fin n) (Fin n) ℚ
  ldltA : (Fin n → ℚ) → Fin n → ℚ
  b : MatrixX3 n
  spring_k : ℚ
  l : List ℚ
  K : Fin 3 → SparseMatrix
  tets : List (Fin 4 → Fin n)
  indices : List (ℤ × ℤ)
  rest_volumes : List ℚ
  weights : List ℚ

/-- What `EnergyTerm().init_tet` hands back: the reported dimension, the rest volume and
weight it wrote through its reference arguments, and the triplets it appended. -/
structure InitTetResult where
  energy_dim : ℤ
  rest_volume : ℚ
  weight : ℚ
  appended : List Triplet

/-- What `FloorCollider().jacobian` fills in: three triplet lists and the targets. -/
structure Jacobian where
  trips_x : List Triplet
  trips_y : List Triplet
  trips_z : List Triplet
  l_coeffs : List ℚ

/-- The collaborators called by the solver, by the signatures of their call sites
(the default-constructed `Lame` parameters are a constant folded into them).
* `init_tet energy_index ele x`: `EnergyTerm().init_tet`;
* `update offset rest_volume weight x Dx z u`: `EnergyTerm().update`, returning the new
  `z` and `u`;
* `jacobian x`: `FloorCollider().jacobian`;
* `ldlt A`: `SimplicialLDLT::compute(A)` followed by `solve`. -/
structure Collaborators where
  init_tet : {n : ℕ} → ℤ → (Fin 4 → Fin n) → MatrixX3 n → InitTetResult
  update : {n nr : ℕ} → ℤ → ℚ → ℚ → MatrixX3 n → ((r : ℕ) × MatrixX3 r) →
    MatrixX3 nr → MatrixX3 nr → MatrixX3 nr × MatrixX3 nr
  jacobian : {n : ℕ} → MatrixX3 n → Jacobian
  ldlt : {n : ℕ} → Matrix (Fin n) (Fin n) ℚ → (Fin n → ℚ) → Fin n → ℚ

/-- How a call ends: normally, with a thrown `std::runtime_error`, or in undefined
behaviour of the C++ abstract machine. -/
inductive Outcome (α : Type) where
  | ok (a : α)
  | runtime_error (msg : String)
  | undefined_behaviour

/-- One pass through the body of a `for` loop: it falls through to the increment, or leaves
through `break`. -/
inductive LoopStep (σ : Type) where
  | next (s : σ)
  | brk (s : σ)

/-- The loop `for (; iter < max; ++iter) body`, from counter value `iter` and state `s`;
returns the counter and the state on exit. -/
def forLoop {σ : Type} (max : ℤ) (body : σ → LoopStep σ) (iter : ℤ) (s : σ) : ℤ × σ :=
  if iter < max then
    match body s with
    | LoopStep.next s1 => forLoop max body (iter + 1) s1
    | LoopStep.brk s1 => (iter, s1)
  else (iter, s)
termination_by (max - iter).toNat
decreasing_by omega

namespace Solver

variable {n nr : ℕ}

/-- `Solver::init_solve` (lines 71-95). -/
def init_solve (options : Options) (data : Data n nr) : Data n nr :=
  let dt := max 0 options.timestep_s
  let v1 : MatrixX3 n := fun i j => data.v i j + options.grav j
  { data with
    x_start := data.x
    v := v1
    M_xbar := fun i j => data.m i * data.x i j + dt * data.m i * v1 i j
    Dx := ⟨nr, data.D * data.x⟩
    z := data.D * data.x
    u := 0 }

/-- `parallel_zu_update` for element `i` (lines 97-113). -/
def parallel_zu_update (c : Collaborators) (data : Data n nr) (i : ℕ) : Data n nr :=
  let zu := c.update (data.indices.getD i (0, 0)).1 (data.rest_volumes.getD i 0)
    (data.weights.getD i 0) data.x data.Dx data.z data.u
  { data with z := zu.1, u := zu.2 }

/-- `Solver::solve_local_step` (lines 115-124): the range `0 .. rest_volumes.size()`. -/
def solve_local_step (c : Collaborators) (data : Data n nr) : Data n nr :=
  (List.range data.rest_volumes.length).foldl (parallel_zu_update c) data

/-- `Solver::update_constraints` (lines 126-166). -/
def update_constraints (c : Collaborators) (data : Data n nr) : Data n nr :=
  let jac := c.jacobian data.x
  let nc := jac.l_coeffs.length
  if nc = 0 then
    { data with
      l := data.l.map fun _ => 0
      K := fun i => (data.K i).setZero }
  else
    { data with
      l := jac.l_coeffs
      K := fun i =>
        { rows := nc
          cols := n
          entries := if i = 0 then jac.trips_x else if i = 1 then jac.trips_y
            else jac.trips_z } }

/-- The lambda `solve_Ax_b` with `parallel_lin_solve` (lines 174-197): column `i` of the
result is `ldltA.solve` of column `i` of `b_`. -/
def solve_Ax_b (data : Data n nr) (b_ : MatrixX3 n) : MatrixX3 n :=
  fun r i => data.ldltA (fun k => b_ k i) r

/-- The lambda `mat_inner` (lines 212-223). -/
def mat_inner {r : ℕ} (A B : MatrixX3 r) : ℚ :=
  ∑ i : Fin r, ∑ j : Fin 3, A i j * B i j

/-- Infinity norm `lpNorm<Infinity>()`: the largest absolute coefficient (zero for an empty
matrix). -/
def lpNormInf {r : ℕ} (M : MatrixX3 r) : ℚ :=
  (Finset.univ : Finset (Fin r × Fin 3)).fold max 0 fun ij => |M ij.1 ij.2|

/-- Per-axis matrices `A[i] = A + spring_k * (Ktᵢ * K[i])` (lines 236-237). -/
def cg_A (data : Data n nr) (i : Fin 3) : Matrix (Fin n) (Fin n) ℚ :=
  data.A + data.spring_k • (((data.K i).toMatrix n).transpose * (data.K i).toMatrix n)

/-- Augmented right-hand side `b.col(i) += spring_k * Ktᵢ * l` (line 238). -/
def cg_b (data : Data n nr) : MatrixX3 n :=
  fun r i => data.b r i +
    (data.spring_k • ((data.K i).toMatrix n).transpose).mulVec (fun c => data.l.getD c 0) r

/-- Column-wise product: column `i` of the result is `A[i] * p.col(i)` (lines 246-247). -/
def mulAxes (A : Fin 3 → Matrix (Fin n) (Fin n) ℚ) (p : MatrixX3 n) : MatrixX3 n :=
  fun r i => (A i).mulVec (fun k => p k i) r

/-- Variables of the conjugate-gradient loop: `data->x` and the locals `r`, `z`, `p`. -/
structure CGState (n : ℕ) where
  x : MatrixX3 n
  r : MatrixX3 n
  z : MatrixX3 n
  p : MatrixX3 n

/-- State before the loop (lines 234-242). -/
def cg_init (data : Data n nr) : CGState n :=
  let r : MatrixX3 n := cg_b data - mulAxes (cg_A data) data.x
  let z := solve_Ax_b data r
  { x := data.x, r := r, z := z, p := z }

/-- Body of the conjugate-gradient loop (lines 246-264). -/
def cg_body (options : Options) (data : Data n nr) (s : CGState n) : LoopStep (CGState n) :=
  let Ap := mulAxes (cg_A data) s.p
  let p_dot_Ap := mat_inner s.p Ap
  if p_dot_Ap = 0 then LoopStep.brk s
  else
    let zk_dot_rk := mat_inner s.z s.r
    if zk_dot_rk = 0 then LoopStep.brk s
    else
      let alpha := zk_dot_rk / p_dot_Ap
      let x1 := s.x + alpha • s.p
      let r1 := s.r - alpha • Ap
      if lpNormInf r1 < options.min_res then LoopStep.brk { s with x := x1, r := r1 }
      else
        let z1 := solve_Ax_b data r1
        let beta := mat_inner z1 r1 / zk_dot_rk
        LoopStep.next { x := x1, r := r1, z := z1, p := z1 + beta • s.p }

/-- `Solver::solve_conjugate_gradients` (lines 183-266), together with the value of the
loop counter on exit (`0` on the fast path, which does not enter the loop). -/
def solve_conjugate_gradients_iters (options : Options) (data : Data n nr) :
    ℤ × Data n nr :=
  if max (max (data.K 0).nonZeros (data.K 1).nonZeros) (data.K 2).nonZeros = 0 then
    (0, { data with x := solve_Ax_b data data.b })
  else
    let out := forLoop options.max_cg_iters (cg_body options data) 0 (cg_init data)
    (out.1, { data with x := out.2.x })

/-- `Solver::solve_conjugate_gradients` (lines 183-266). -/
def solve_conjugate_gradients (options : Options) (data : Data n nr) : Data n nr :=
  (solve_conjugate_gradients_iters options data).2

/-- The quadratic energy minimised by the constrained solve, summed over the three axes:
`½·xᵀ·A[i]·x − b[i]ᵀ·x`. -/
def cg_energy (data : Data n nr) (x : MatrixX3 n) : ℚ :=
  1 / 2 * mat_inner x (mulAxes (cg_A data) x) - mat_inner (cg_b data) x

/-- Invariant of the CG loop: `r` is the residual of `x`, and `p` and `z` have the same inner
product with `r`. -/
def CGInv (data : Data n nr) (s : CGState n) : Prop :=
  s.r = cg_b data - mulAxes (cg_A data) s.x ∧ mat_inner s.p s.r = mat_inner s.z s.r

/-- Body of the ADMM loop (lines 56-60). -/
def solve_body (c : Collaborators) (options : Options) (data : Data n nr) : Data n nr :=
  let d1 := solve_local_step c data
  let d2 := update_constraints c d1
  let d3 := { d2 with b := d2.M_xbar + d2.DtW2 * (d2.z - d2.u) }
  solve_conjugate_gradients options d3

/-- `Solver::solve` (lines 41-69): the returned iteration count and the state. -/
def solve (c : Collaborators) (options : Options) (data : Data n nr) : ℤ × Data n nr :=
  let d0 := init_solve options data
  let out := forLoop options.max_admm_iters
    (fun d => LoopStep.next (solve_body c options d)) 0 d0
  let dt := options.timestep_s
  let d1 := out.2
  if dt > 0 then (out.1, { d1 with v := (1 / dt) • (d1.x - d1.x_start) })
  else (out.1, d1)

/-- The matrix `edges` of `compute_masses` (lines 349-352): column `k` is
`x.row(tet[k+1]) - x.row(tet[0])`. -/
def tet_edges (x : MatrixX3 n) (tet : Fin 4 → Fin n) : Matrix (Fin 3) (Fin 3) ℚ :=
  Matrix.of fun r k => x (tet k.succ) r - x (tet 0) r

/-- The local `tet_mass` of `compute_masses` (lines 342, 353-354). -/
def tet_mass (x : MatrixX3 n) (tet : Fin 4 → Fin n) : ℚ :=
  let density_kgm3 : ℚ := 1100
  let v := |(tet_edges x tet).det / 6|
  density_kgm3 * v

/-- One pass of the loop of `compute_masses` (lines 348-358). -/
def compute_masses_step (x : MatrixX3 n) (m : Fin n → ℚ) (tet : Fin 4 → Fin n) : Fin n → ℚ :=
  let tm := tet_mass x tet
  let m0 := Function.update m (tet 0) (m (tet 0) + tm / 4)
  let m1 := Function.update m0 (tet 1) (m0 (tet 1) + tm / 4)
  let m2 := Function.update m1 (tet 2) (m1 (tet 2) + tm / 4)
  Function.update m2 (tet 3) (m2 (tet 3) + tm / 4)

/-- `Solver::compute_masses` (lines 335-360): the new value of `data->m`. -/
def compute_masses (x : MatrixX3 n) (tets : List (Fin 4 → Fin n)) : Fin n → ℚ :=
  tets.foldl (compute_masses_step x) (fun _ => 0)

/-- What `append_energies` writes: the three metadata lists of the state, the triplet list
and the local `energy_index`. -/
structure EnergyAcc where
  indices : List (ℤ × ℤ)
  rest_volumes : List ℚ
  weights : List ℚ
  D_triplets : List Triplet
  energy_index : ℤ

/-- One pass of the loop of `append_energies` (lines 379-400). -/
def append_energies_step (c : Collaborators) (x : MatrixX3 n) (acc : EnergyAcc)
    (ele : Fin 4 → Fin n) : EnergyAcc :=
  let res := c.init_tet acc.energy_index ele x
  let trips := acc.D_triplets ++ res.appended
  if res.energy_dim ≤ 0 then
    { acc with D_triplets := trips }
  else
    { indices := acc.indices ++ [(acc.energy_index, res.energy_dim)]
      rest_volumes := acc.rest_volumes ++ [res.rest_volume]
      weights := acc.weights ++ [res.weight]
      D_triplets := trips
      energy_index := acc.energy_index + res.energy_dim }

/-- `Solver::append_energies` (lines 362-402), from the metadata lists already in the state
and the triplet list passed in. -/
def append_energies (c : Collaborators) (x : MatrixX3 n) (tets : List (Fin 4 → Fin n))
    (indices : List (ℤ × ℤ)) (rest_volumes weights : List ℚ) (D_triplets : List Triplet) :
    EnergyAcc :=
  let start : EnergyAcc :=
    { indices := indices, rest_volumes := rest_volumes, weights := weights,
      D_triplets := D_triplets, energy_index := 0 }
  let nt := tets.length
  if nt = 0 then start
  else tets.foldl (append_energies_step c x) start

/-- The mesh of the dropping property, in the words of the specification: the tetrahedra of
`tets` without those for which the energy term reports a non-positive dimension, the
dimension being the one reported when the element is reached with running index `idx`. -/
def kept_tets (c : Collaborators) (x : MatrixX3 n) : ℤ → List (Fin 4 → Fin n) →
    List (Fin 4 → Fin n)
  | _, [] => []
  | idx, ele :: rest =>
    if (c.init_tet idx ele x).energy_dim ≤ 0 then kept_tets c x idx rest
    else ele :: kept_tets c x (idx + (c.init_tet idx ele x).energy_dim) rest

/-- The local `dt2` of `compute_matrices` (lines 291-293). -/
def compute_dt2 (options : Options) : ℚ :=
  let dt2 := options.timestep_s * options.timestep_s
  if dt2 ≤ 0 then 1 else dt2

/-- Diagonal of `W2` after the loop of lines 299-307: row `idx[0]+j` is overwritten with
`weights[i]²` for each element `i` in turn. -/
def W2_diag (indices : List (ℤ × ℤ)) (weights : List ℚ) : ℤ → ℚ :=
  (List.range indices.length).foldl
    (fun w i =>
      let idx := indices.getD i (0, 0)
      fun r => if idx.1 ≤ r ∧ r < idx.1 + idx.2 then weights.getD i 0 * weights.getD i 0
        else w r)
    (fun _ => 0)

/-- `diagonal().maxCoeff()` (line 322); not defined on an empty diagonal. -/
def maxCoeff : {k : ℕ} → (Fin k → ℚ) → Option ℚ
  | 0, _ => none
  | _ + 1, d => some (Finset.univ.sup' Finset.univ_nonempty d)

/-- `Solver::compute_matrices` (lines 268-333), run on the state `old` in which `init` has
just stored `x = V` and `tets = T`. Reading `trips.back()` of an empty list is undefined
behaviour. -/
def compute_matrices {n0 nr0 : ℕ} (c : Collaborators) (options : Options) (V : MatrixX3 n)
    (T : List (Fin 4 → Fin n)) (old : Data n0 nr0) : Outcome ((nr : ℕ) × Data n nr) :=
  let v : MatrixX3 n := if h : n0 = n then h ▸ old.v else 0
  let m : Fin n → ℚ := if h : n0 = n then h ▸ old.m else compute_masses V T
  let acc := append_energies c V T old.indices old.rest_volumes old.weights []
  match acc.D_triplets.getLast? with
  | none => Outcome.undefined_behaviour
  | some last =>
    let n_row_D := last.row + 1
    let dt2 := compute_dt2 options
    let W2 : Matrix (Fin n_row_D) (Fin n_row_D) ℚ :=
      Matrix.diagonal fun r => W2_diag acc.indices acc.weights r
    let D : Matrix (Fin n_row_D) (Fin n) ℚ :=
      SparseMatrix.toMatrix { rows := n_row_D, cols := n, entries := acc.D_triplets } n
    let Dt := D.transpose
    let DtW2 := dt2 • Dt * W2
    let A := DtW2 * D + Matrix.diagonal m
    match maxCoeff A.diag with
    | none => Outcome.undefined_behaviour
    | some amax =>
      Outcome.ok ⟨n_row_D,
        { x := V
          v := v
          x_start := V
          m := m
          z := 0
          u := 0
          M_xbar := 0
          Dx := ⟨n, 0⟩
          D := D
          Dt := Dt
          DtW2 := DtW2
          A := A
          ldltA := c.ldlt A
          b := 0
          spring_k := options.mult_k * amax
          l := [0]
          K := fun _ => { rows := 1, cols := n, entries := [] }
          tets := T
          indices := acc.indices
          rest_volumes := acc.rest_volumes
          weights := acc.weights }⟩

/-- `Solver::init` (lines 26-39); an absent handle is `none`. -/
def init {n0 nr0 : ℕ} (c : Collaborators) (V : MatrixX3 n) (T : List (Fin 4 → Fin n))
    (options : Option Options) (data : Option (Data n0 nr0)) :
    Outcome (Bool × ((nr : ℕ) × Data n nr)) :=
  match data, options with
  | some d, some o =>
    match compute_matrices c o V T d with
    | Outcome.ok r => Outcome.ok (true, r)
    | Outcome.runtime_error msg => Outcome.runtime_error msg
    | Outcome.undefined_behaviour => Outcome.undefined_behaviour
  | _, _ => Outcome.runtime_error "init: data/options null"

/-- The state object `*data` as `Solver::init` leaves it when the call ends by `return` or
by `throw` (lines 32-38): the test of the handles throws before the first assignment.
`none` when there is no state object or the call ended in undefined behaviour. -/
def init_state {n0 nr0 : ℕ} (c : Collaborators) (V : MatrixX3 n) (T : List (Fin 4 → Fin n))
    (options : Option Options) (data : Option (Data n0 nr0)) :
    Option ((k : ℕ) × (kr : ℕ) × Data k kr) :=
  match data, options with
  | some d, some o =>
    match compute_matrices c o V T d with
    | Outcome.ok r => some ⟨n, r.1, r.2⟩
    | Outcome.runtime_error _ => none
    | Outcome.undefined_behaviour => none
  | some d, none => some ⟨n0, nr0, d⟩
  | none, _ => none

/-- Paired form of the loop of lines 299-307, from a diagonal `w`: each entry
`((offset, dimension), weight)` in turn overwrites the rows of its range with `weight²`. -/
def W2_fold (w : ℤ → ℚ) (l : List ((ℤ × ℤ) × ℚ)) : ℤ → ℚ :=
  l.foldl
    (fun w e => fun r => if e.1.1 ≤ r ∧ r < e.1.1 + e.1.2 then e.2 * e.2 else w r)
    w

/-- The `(offset, dimension)` pairs of `l` follow one another from row `s`: each offset is
where the previous range ended, and each dimension is positive. -/
def ChainFrom : ℤ → List (ℤ × ℤ) → Prop
  | _, [] => True
  | s, p :: l => p.1 = s ∧ 0 < p.2 ∧ ChainFrom (s + p.2) l

end Solver

/-- A default-constructed `Data`: every matrix and list empty. -/
def Data.fresh : Data 0 0 :=
  { x := 0, v := 0, x_start := 0, m := fun _ => 0, z := 0, u := 0, M_xbar := 0,
    Dx := ⟨0, 0⟩, D := 0, Dt := 0, DtW2 := 0, A := 0, ldltA := fun b => b, b := 0,
    spring_k := 0, l := [], K := fun _ => { rows := 0, cols := 0, entries := [] },
    tets := [], indices := [], rest_volumes := [], weights := [] }

/-! ## Concrete collaborators and states used to instantiate the theorems -/

namespace Example

/-- An exact linear solve by Cramer's rule, `A⁻¹ b = (det A)⁻¹ · adj(A) · b`, standing for a
factorization without rounding. -/
def exactSolve {n : ℕ} (A : Matrix (Fin n) (Fin n) ℚ) (b : Fin n → ℚ) : Fin n → ℚ :=
  (A.det)⁻¹ • A.adjugate.mulVec b

/-- An energy term with three rows per tetrahedron (the three edge differences), which
reports dimension `0` and appends nothing for a tetrahedron of zero volume. -/
def init_tet {n : ℕ} (energy_index : ℤ) (ele : Fin 4 → Fin n) (x : MatrixX3 n) :
    InitTetResult :=
  let vol := |(Solver.tet_edges x ele).det| / 6
  if vol = 0 then { energy_dim := 0, rest_volume := 0, weight := 0, appended := [] }
  else
    let r := energy_index.toNat
    { energy_dim := 3
      rest_volume := vol
      weight := vol
      appended :=
        [⟨r, ele 1, 1⟩, ⟨r, ele 0, -1⟩, ⟨r + 1, ele 2, 1⟩, ⟨r + 1, ele 0, -1⟩,
          ⟨r + 2, ele 3, 1⟩, ⟨r + 2, ele 0, -1⟩] }

/-- A floor at height zero: one constraint row on the third axis for every vertex below it. -/
def jacobian {n : ℕ} (x : MatrixX3 n) : Jacobian :=
  let below := (List.finRange n).filter fun i => x i 2 < 0
  { trips_x := []
    trips_y := []
    trips_z := below.enum.map fun ci => ⟨ci.1, ci.2, 1⟩
    l_coeffs := below.map fun _ => 0 }

/-- Collaborators: the energy term above with a projection that changes nothing, the floor
collider, and the exact solve. -/
def collab : Collaborators :=
  { init_tet := init_tet
    update := fun _ _ _ _ _ z u => (z, u)
    jacobian := jacobian
    ldlt := exactSolve }

/-- Options of a dynamic step: gravity along the third axis, timestep one half. -/
def options : Options :=
  { timestep_s := 1 / 2, max_admm_iters := 2, max_cg_iters := 3, mult_k := 1,
    min_res := 1 / 1000, grav := ![0, 0, -1] }

/-- A state of one vertex of mass `2` at height `5`, without elements. -/
def vertexState : Data 1 0 :=
  { x := Matrix.of ![![0, 0, 5]], v := 0, x_start := 0, m := fun _ => 2, z := 0, u := 0,
    M_xbar := 0, Dx := ⟨0, 0⟩, D := 0, Dt := 0, DtW2 := 0, A := Matrix.diagonal fun _ => 2,
    ldltA := fun b i => b i / 2, b := Matrix.of ![![2, 4, 6]], spring_k := 2, l := [0],
    K := fun _ => { rows := 1, cols := 1, entries := [] },
    tets := [], indices := [], rest_volumes := [], weights := [] }

/-- Five vertices: the unit corner tetrahedron and a fifth vertex in its base plane. -/
def meshX : MatrixX3 5 :=
  Matrix.of ![![0, 0, 0], ![1, 0, 0], ![0, 1, 0], ![0, 0, 1], ![1, 1, 0]]

/-- A tetrahedron of zero volume: its four vertices lie in the base plane. -/
def flatTet : Fin 4 → Fin 5 := ![0, 1, 2, 4]

/-- The unit corner tetrahedron, of volume `1/6`. -/
def cornerTet : Fin 4 → Fin 5 := ![0, 1, 2, 3]

/-- Options with a negative timestep of one half. -/
def negativeStep : Options :=
  { options with timestep_s := -1 / 2 }

/-- Options without gravity. -/
def noGravity : Options :=
  { options with grav := 0 }

/-- Two vertices of mass `1` joined by one element of dimension `1` (`D = [-1 1]`, weight
`1`, `dt² = 1`), so that `A = Dt·D + diag(m)`; the factorization is the exact solve. -/
def springState : Data 2 1 :=
  { x := Matrix.of ![![0, 0, 1], ![0, 0, 2]], v := 0, x_start := 0, m := fun _ => 1,
    z := 0, u := 0, M_xbar := 0, Dx := ⟨0, 0⟩, D := Matrix.of ![![-1, 1]],
    Dt := Matrix.of ![![-1], ![1]], DtW2 := Matrix.of ![![-1], ![1]],
    A := Matrix.of ![![2, -1], ![-1, 2]],
    ldltA := exactSolve (Matrix.of ![![2, -1], ![-1, 2]]),
    b := Matrix.of ![![1, 0, 3], ![0, 3, 3]], spring_k := 2, l := [0],
    K := fun _ => { rows := 1, cols := 2, entries := [] },
    tets := [], indices := [(0, 1)], rest_volumes := [1], weights := [1] }

/-- The two-vertex state with a stored constraint row on every axis and penalty stiffness
zero. -/
def zeroStiffnessState : Data 2 1 :=
  { springState with
    spring_k := 0
    l := [7]
    K := fun _ => { rows := 1, cols := 2, entries := [⟨0, 1, 1⟩] } }

/-- One vertex of mass `1` with a stored constraint row on the second axis only and penalty
stiffness `99`, so that `A[1] = 100` while `A[0] = A[2] = 1`; the factorization of `A = 1`
is the identity. -/
def stiffAxisState : Data 1 0 :=
  { x := 0, v := 0, x_start := 0, m := fun _ => 1, z := 0, u := 0,
    M_xbar := 0, Dx := ⟨0, 0⟩, D := 0, Dt := 0, DtW2 := 0, A := 1,
    ldltA := fun b => b, b := Matrix.of ![![1, 1 / 10, 0]], spring_k := 99, l := [0],
    K := fun i => { rows := 1, cols := 1, entries := if i = 1 then [⟨0, 0, 1⟩] else [] },
    tets := [], indices := [], rest_volumes := [], weights := [] }

/-- Options with no ADMM iteration. -/
def zeroIters : Options :=
  { options with max_admm_iters := 0 }

/-- One vertex of mass `1` at height `5` moving along the first axis, without elements;
`A = 1` and its factorization is the identity. -/
def unitVertex : Data 1 0 :=
  { x := Matrix.of ![![0, 0, 5]], v := Matrix.of ![![1, 0, 0]], x_start := 0,
    m := fun _ => 1, z := 0, u := 0, M_xbar := 0, Dx := ⟨0, 0⟩, D := 0, Dt := 0, DtW2 := 0,
    A := 1, ldltA := fun b => b, b := 0, spring_k := 1, l := [0],
    K := fun _ => { rows := 1, cols := 1, entries := [] },
    tets := [], indices := [], rest_volumes := [], weights := [] }

/-- The one-vertex system with a stiff second axis, started at the solution
`x = (1, 1/1000, 0)` of `A[i]·x = b`. -/
def solvedStiffState : Data 1 0 :=
  { stiffAxisState with x := Matrix.of ![![1, 1 / 1000, 0]] }

/-- The four vertices of the unit corner tetrahedron. -/
def tetX : MatrixX3 4 :=
  Matrix.of ![![0, 0, 0], ![1, 0, 0], ![0, 1, 0], ![0, 0, 1]]

/-- The unit corner tetrahedron on `tetX`. -/
def unitTet : Fin 4 → Fin 4 := ![0, 1, 2, 3]

end Example

/-! ## Loops -/

theorem forLoop_of_not_lt {σ : Type} (max : ℤ) (body : σ → LoopStep σ) (iter : ℤ) (s : σ)
    (h : ¬ iter < max) : forLoop max body iter s = (iter, s) := by
  rw [forLoop, if_neg h]

theorem forLoop_of_lt {σ : Type} (max : ℤ) (body : σ → LoopStep σ) (iter : ℤ) (s : σ)
    (h : iter < max) :
    forLoop max body iter s =
      match body s with
      | LoopStep.next s1 => forLoop max body (iter + 1) s1
      | LoopStep.brk s1 => (iter, s1) := by
  rw [forLoop, if_pos h]

/-- A loop whose body never breaks runs until the counter reaches `max`. -/
theorem forLoop_next_iterate {σ : Type} (max : ℤ) (f : σ → σ) (k : ℕ) :
    ∀ (iter : ℤ) (s : σ), iter + k = max →
      forLoop max (fun d => LoopStep.next (f d)) iter s = (max, f^[k] s) := by
  induction k with
  | zero =>
    intro iter s h
    have h1 : iter = max := by simpa using h
    rw [forLoop_of_not_lt _ _ _ _ (by omega), h1]
    rfl
  | succ k ih =>
    intro iter s h
    rw [forLoop_of_lt _ _ _ _ (by push_cast at h; omega)]
    simp only
    rw [ih (iter + 1) (f s) (by push_cast at h; omega)]
    rfl

namespace Solver

variable {n nr : ℕ}

/-! ## Fields the ADMM loop body leaves alone -/

theorem solve_local_step_fold_fields (c : Collaborators) (l : List ℕ) :
    ∀ data : Data n nr,
      (l.foldl (parallel_zu_update c) data).x = data.x ∧
      (l.foldl (parallel_zu_update c) data).v = data.v ∧
      (l.foldl (parallel_zu_update c) data).x_start = data.x_start ∧
      (l.foldl (parallel_zu_update c) data).M_xbar = data.M_xbar ∧
      (l.foldl (parallel_zu_update c) data).DtW2 = data.DtW2 ∧
      (l.foldl (parallel_zu_update c) data).A = data.A ∧
      (l.foldl (parallel_zu_update c) data).ldltA = data.ldltA ∧
      (l.foldl (parallel_zu_update c) data).D = data.D ∧
      (l.foldl (parallel_zu_update c) data).K = data.K := by
  induction l with
  | nil => intro data; simp
  | cons a l ih =>
    intro data
    simp only [List.foldl_cons]
    have h := ih (parallel_zu_update c data a)
    simpa [parallel_zu_update] using h

theorem solve_conjugate_gradients_fields (options : Options) (data : Data n nr) :
    (solve_conjugate_gradients options data).v = data.v ∧
    (solve_conjugate_gradients options data).x_start = data.x_start ∧
    (solve_conjugate_gradients options data).M_xbar = data.M_xbar ∧
    (solve_conjugate_gradients options data).DtW2 = data.DtW2 ∧
    (solve_conjugate_gradients options data).A = data.A ∧
    (solve_conjugate_gradients options data).ldltA = data.ldltA ∧
    (solve_conjugate_gradients options data).D = data.D ∧
    (solve_conjugate_gradients options data).z = data.z ∧
    (solve_conjugate_gradients options data).u = data.u := by
  unfold solve_conjugate_gradients solve_conjugate_gradients_iters
  split <;> simp

theorem update_constraints_fields (c : Collaborators) (data : Data n nr) :
    (update_constraints c data).x = data.x ∧
    (update_constraints c data).v = data.v ∧
    (update_constraints c data).x_start = data.x_start ∧
    (update_constraints c data).M_xbar = data.M_xbar ∧
    (update_constraints c data).DtW2 = data.DtW2 ∧
    (update_constraints c data).A = data.A ∧
    (update_constraints c data).ldltA = data.ldltA ∧
    (update_constraints c data).D = data.D ∧
    (update_constraints c data).z = data.z ∧
    (update_constraints c data).u = data.u := by
  unfold update_constraints
  simp only
  split <;> simp

theorem solve_body_v_x_start (c : Collaborators) (options : Options) (data : Data n nr) :
    (solve_body c options data).v = data.v ∧
    (solve_body c options data).x_start = data.x_start := by
  unfold solve_body
  simp only
  obtain ⟨h1, h2, -⟩ := solve_conjugate_gradients_fields options
    { update_constraints c (solve_local_step c data) with
      b := (update_constraints c (solve_local_step c data)).M_xbar +
        (update_constraints c (solve_local_step c data)).DtW2 *
          ((update_constraints c (solve_local_step c data)).z -
            (update_constraints c (solve_local_step c data)).u) }
  obtain ⟨-, h3, h4, -⟩ := update_constraints_fields c (solve_local_step c data)
  obtain ⟨-, h5, h6, -⟩ := solve_local_step_fold_fields c
    (List.range data.rest_volumes.length) data
  constructor
  · rw [h1]; simp only; rw [h3]; exact h5
  · rw [h2]; simp only; rw [h4]; exact h6

theorem solve_body_iterate_v_x_start (c : Collaborators) (options : Options) (k : ℕ) :
    ∀ data : Data n nr,
      ((solve_body c options)^[k] data).v = data.v ∧
      ((solve_body c options)^[k] data).x_start = data.x_start := by
  induction k with
  | zero => intro data; simp
  | succ k ih =>
    intro data
    rw [Function.iterate_succ_apply]
    obtain ⟨h1, h2⟩ := ih (solve_body c options data)
    obtain ⟨h3, h4⟩ := solve_body_v_x_start c options data
    exact ⟨h1.trans h3, h2.trans h4⟩

/-- The ADMM loop of `solve` as an iterate of its body. -/
theorem solve_loop_eq (c : Collaborators) (options : Options) (d0 : Data n nr)
    (h : 0 ≤ options.max_admm_iters) :
    forLoop options.max_admm_iters (fun d => LoopStep.next (solve_body c options d)) 0 d0 =
      (options.max_admm_iters, (solve_body c options)^[options.max_admm_iters.toNat] d0) :=
  forLoop_next_iterate _ _ _ 0 d0 (by omega)

/-- C1: for every state and every options with `max_admm_iters ≥ 0`, `Solver::solve` returns
exactly `max_admm_iters`, and the state it leaves is the one reached by running the loop body
(local step, constraint refresh, right-hand side, global solve) exactly `max_admm_iters`
times from the state set up by `init_solve`, followed by the velocity update; nothing in the
body ends the loop early. -/
theorem solve_returns_max_admm_iters (c : Collaborators) (options : Options)
    (data : Data n nr) (h : 0 ≤ options.max_admm_iters) :
    (solve c options data).1 = options.max_admm_iters ∧
    (solve c options data).2.x =
      ((solve_body c options)^[options.max_admm_iters.toNat] (init_solve options data)).x ∧
    (solve c options data).2.z =
      ((solve_body c options)^[options.max_admm_iters.toNat] (init_solve options data)).z ∧
    (solve c options data).2.u =
      ((solve_body c options)^[options.max_admm_iters.toNat] (init_solve options data)).u := by
  unfold solve
  simp only [solve_loop_eq c options _ h]
  split <;> simp

/-- State on exit from the ADMM loop, for every `max_admm_iters` (none run when negative). -/
theorem solve_loop_state (c : Collaborators) (options : Options) (d0 : Data n nr) :
    (forLoop options.max_admm_iters
      (fun d => LoopStep.next (solve_body c options d)) 0 d0).2 =
      (solve_body c options)^[options.max_admm_iters.toNat] d0 := by
  by_cases h : 0 ≤ options.max_admm_iters
  · rw [solve_loop_eq c options d0 h]
  · rw [forLoop_of_not_lt _ _ _ _ (by omega)]
    have h0 : options.max_admm_iters.toNat = 0 := by omega
    rw [h0]
    rfl

/-- C2: the velocity on return from `Solver::solve`. With `timestep > 0` it is
`(x - x_start) / timestep` for every vertex and axis, `x` the final position and `x_start`
the position on entry; otherwise it is the velocity produced by `init_solve`, which is the
entry velocity plus gravity on every vertex. -/
theorem solve_velocity (c : Collaborators) (options : Options) (data : Data n nr) :
    (solve c options data).2.v =
      (if 0 < options.timestep_s then
        fun i j => ((solve c options data).2.x i j - data.x i j) / options.timestep_s
      else (init_solve options data).v) ∧
    (init_solve options data).v = fun i j => data.v i j + options.grav j := by
  refine ⟨?_, rfl⟩
  obtain ⟨hv, hxs⟩ := solve_body_iterate_v_x_start c options
    options.max_admm_iters.toNat (init_solve options data)
  unfold solve
  simp only [solve_loop_state, gt_iff_lt]
  by_cases hdt : 0 < options.timestep_s
  · simp only [if_pos hdt]
    rw [hxs]
    funext i j
    simp [init_solve, Matrix.smul_apply, Matrix.sub_apply, div_eq_inv_mul]
  · simp only [if_neg hdt]
    exact hv

/-- Instance of `solve_returns_max_admm_iters`: two ADMM iterations on the one-vertex state. -/
theorem solve_returns_max_admm_iters_witness :
    0 ≤ Example.options.max_admm_iters ∧
    (solve Example.collab Example.options Example.vertexState).1 = 2 :=
  ⟨by decide,
    (solve_returns_max_admm_iters Example.collab Example.options Example.vertexState
      (by decide)).1⟩

/-! ## The global step without constraints -/

theorem SparseMatrix_nonZeros_setZero (K : SparseMatrix) : K.setZero.nonZeros = 0 := by
  simp [SparseMatrix.setZero, SparseMatrix.nonZeros]

/-- An exact factorization computes the inverse. -/
theorem ldlt_exact_eq_inv (A : Matrix (Fin n) (Fin n) ℚ) (solveA : (Fin n → ℚ) → Fin n → ℚ)
    (hex : ∀ b, A.mulVec (solveA b) = b) (b : Fin n → ℚ) : solveA b = A⁻¹.mulVec b := by
  have hsurj : Function.Surjective A.mulVec := fun y => ⟨solveA y, hex y⟩
  have hunit : IsUnit A.det :=
    (Matrix.isUnit_iff_isUnit_det A).1 (Matrix.mulVec_surjective_iff_isUnit.1 hsurj)
  calc solveA b = (A⁻¹ * A).mulVec (solveA b) := by
        rw [Matrix.nonsing_inv_mul A hunit, Matrix.one_mulVec]
    _ = A⁻¹.mulVec (A.mulVec (solveA b)) := by rw [Matrix.mulVec_mulVec]
    _ = A⁻¹.mulVec b := by rw [hex]

/-- C3: fast path of `solve_conjugate_gradients`. When the three constraint matrices have no
stored coefficient, the global step does not enter the CG loop and sets every axis column of
`x` to the cached factorization's solve of the same column of `b`; the result is the same for
every previous `x`, `max_cg_iters` and `min_res`; when the factorization is exact
(`A·solve(b) = b` for all `b`) the column is `A⁻¹·b`. The state left by `update_constraints`
when the collider returns zero constraints is such a state. -/
theorem solve_conjugate_gradients_fast_path (options : Options) (data : Data n nr)
    (hK : ∀ i, (data.K i).nonZeros = 0) :
    solve_conjugate_gradients_iters options data =
      (0, { data with x := fun r i => data.ldltA (fun k => data.b k i) r }) ∧
    (∀ (options1 : Options) (x1 : MatrixX3 n),
      (solve_conjugate_gradients options1 { data with x := x1 }).x =
        (solve_conjugate_gradients options data).x) ∧
    ((∀ b, data.A.mulVec (data.ldltA b) = b) →
      ∀ i, (fun r => (solve_conjugate_gradients options data).x r i) =
        data.A⁻¹.mulVec (fun k => data.b k i)) ∧
    (∀ (c : Collaborators) (d : Data n nr), (c.jacobian d.x).l_coeffs = [] →
      ∀ i, ((update_constraints c d).K i).nonZeros = 0) := by
  have hmax : max (max (data.K 0).nonZeros (data.K 1).nonZeros) (data.K 2).nonZeros = 0 := by
    simp [hK]
  have h1 : ∀ (options1 : Options) (x1 : MatrixX3 n),
      solve_conjugate_gradients_iters options1 { data with x := x1 } =
        (0, { data with x := fun r i => data.ldltA (fun k => data.b k i) r }) := by
    intro options1 x1
    unfold solve_conjugate_gradients_iters
    simp only [hmax, if_true]
    rfl
  refine ⟨h1 options data.x, ?_, ?_, ?_⟩
  · intro options1 x1
    unfold solve_conjugate_gradients
    rw [h1 options1 x1, h1 options data.x]
  · intro hex i
    unfold solve_conjugate_gradients
    rw [h1 options data.x]
    exact ldlt_exact_eq_inv data.A data.ldltA hex _
  · intro c d hc i
    unfold update_constraints
    simp [hc, SparseMatrix_nonZeros_setZero]

/-- Instance of `solve_conjugate_gradients_fast_path`: the one-vertex state has no stored
constraint coefficient, and its global step returns `b / 2`. -/
theorem solve_conjugate_gradients_fast_path_witness :
    (∀ i, (Example.vertexState.K i).nonZeros = 0) ∧
    (solve_conjugate_gradients Example.options Example.vertexState).x =
      Matrix.of ![![1, 2, 3]] := by
  have hK : ∀ i, (Example.vertexState.K i).nonZeros = 0 := by
    intro i
    simp [Example.vertexState, SparseMatrix.nonZeros]
  refine ⟨hK, ?_⟩
  have h := (solve_conjugate_gradients_fast_path Example.options Example.vertexState hK).1
  unfold solve_conjugate_gradients
  rw [h]
  ext r i
  fin_cases r
  fin_cases i <;> simp [Example.vertexState] <;> norm_num

/-! ## Lumped masses -/

theorem tet_mass_eq (x : MatrixX3 n) (tet : Fin 4 → Fin n) :
    tet_mass x tet = 1100 * |(tet_edges x tet).det| / 6 := by
  unfold tet_mass
  simp only
  rw [abs_div, abs_of_pos (by norm_num : (0 : ℚ) < 6)]
  ring

theorem update_add_apply {k : ℕ} (m : Fin k → ℚ) (a : Fin k) (q : ℚ) :
    Function.update m a (m a + q) = fun i => m i + if a = i then q else 0 := by
  funext i
  by_cases h : a = i
  · subst h; simp
  · have h1 : i ≠ a := fun e => h e.symm
    simp [Function.update_noteq h1, h]

theorem compute_masses_step_apply (x : MatrixX3 n) (m : Fin n → ℚ) (tet : Fin 4 → Fin n)
    (i : Fin n) :
    compute_masses_step x m tet i =
      m i + ∑ j : Fin 4, if tet j = i then tet_mass x tet / 4 else 0 := by
  unfold compute_masses_step
  rw [update_add_apply, update_add_apply, update_add_apply, update_add_apply]
  simp only [Fin.sum_univ_four]
  ring

theorem compute_masses_fold (x : MatrixX3 n) (tets : List (Fin 4 → Fin n)) :
    ∀ (m : Fin n → ℚ) (i : Fin n),
      tets.foldl (compute_masses_step x) m i =
        m i + (tets.map fun tet =>
          ∑ j : Fin 4, if tet j = i then tet_mass x tet / 4 else 0).sum := by
  induction tets with
  | nil => intro m i; simp
  | cons t ts ih =>
    intro m i
    rw [List.foldl_cons, ih, compute_masses_step_apply, List.map_cons, List.sum_cons]
    ring

/-- C4: `compute_masses`. The mass of vertex `i` is the sum, over every tetrahedron `t` and
every corner `j` of `t` that is vertex `i`, of `1100·|det[x₁-x₀, x₂-x₀, x₃-x₀]| / 6 / 4`;
a tetrahedron of zero volume leaves every mass as it was; every mass is non-negative.
The function is total: it raises no error. -/
theorem compute_masses_spec (x : MatrixX3 n) (tets : List (Fin 4 → Fin n)) :
    (∀ i, compute_masses x tets i =
      (tets.map fun tet =>
        ∑ j : Fin 4, if tet j = i then 1100 * |(tet_edges x tet).det| / 6 / 4 else 0).sum) ∧
    (∀ (tet : Fin 4 → Fin n) (m : Fin n → ℚ),
      (tet_edges x tet).det = 0 → compute_masses_step x m tet = m) ∧
    (∀ i, 0 ≤ compute_masses x tets i) := by
  have hsum : ∀ i, compute_masses x tets i =
      (tets.map fun tet =>
        ∑ j : Fin 4, if tet j = i then 1100 * |(tet_edges x tet).det| / 6 / 4 else 0).sum := by
    intro i
    unfold compute_masses
    rw [compute_masses_fold]
    simp only [tet_mass_eq, zero_add]
  refine ⟨hsum, ?_, ?_⟩
  · intro tet m hdet
    funext i
    rw [compute_masses_step_apply, tet_mass_eq, hdet]
    simp
  · intro i
    rw [hsum]
    apply List.sum_nonneg
    intro a ha
    obtain ⟨tet, -, rfl⟩ := List.mem_map.1 ha
    apply Finset.sum_nonneg
    intro j _
    split
    · positivity
    · exact le_refl 0

/-! ## Dropping of failed elements -/

theorem append_energies_fold_kept (c : Collaborators) (x : MatrixX3 n)
    (hdrop : ∀ (idx : ℤ) (ele : Fin 4 → Fin n),
      (c.init_tet idx ele x).energy_dim ≤ 0 → (c.init_tet idx ele x).appended = [])
    (tets : List (Fin 4 → Fin n)) :
    ∀ acc : EnergyAcc,
      tets.foldl (append_energies_step c x) acc =
        (kept_tets c x acc.energy_index tets).foldl (append_energies_step c x) acc := by
  induction tets with
  | nil => intro acc; rfl
  | cons ele rest ih =>
    intro acc
    by_cases hd : (c.init_tet acc.energy_index ele x).energy_dim ≤ 0
    · have hstep : append_energies_step c x acc ele = acc := by
        unfold append_energies_step
        simp only [if_pos hd, hdrop _ _ hd, List.append_nil]
      rw [List.foldl_cons, hstep, kept_tets, if_pos hd]
      exact ih acc
    · have hidx : (append_energies_step c x acc ele).energy_index =
          acc.energy_index + (c.init_tet acc.energy_index ele x).energy_dim := by
        unfold append_energies_step
        simp only [if_neg hd]
      rw [List.foldl_cons, kept_tets, if_neg hd, List.foldl_cons, ih, hidx]

/-- C5: dropping of failed elements in `append_energies`. If the energy term appends no
reduction rows whenever it reports a non-positive dimension, then `append_energies` on a mesh
gives the same reduction-row triplets, `(offset, dimension)` pairs, rest volumes and weights
(and the same final running index) as `append_energies` on the mesh from which every
tetrahedron with non-positive reported dimension has been removed; this holds from every
starting content of the lists, the empty lists of a fresh state included. -/
theorem append_energies_drops_failed (c : Collaborators) (x : MatrixX3 n)
    (tets : List (Fin 4 → Fin n)) (indices : List (ℤ × ℤ)) (rest_volumes weights : List ℚ)
    (D_triplets : List Triplet)
    (hdrop : ∀ (idx : ℤ) (ele : Fin 4 → Fin n),
      (c.init_tet idx ele x).energy_dim ≤ 0 → (c.init_tet idx ele x).appended = []) :
    append_energies c x tets indices rest_volumes weights D_triplets =
      append_energies c x (kept_tets c x 0 tets) indices rest_volumes weights D_triplets := by
  have h := append_energies_fold_kept c x hdrop tets
    { indices := indices, rest_volumes := rest_volumes, weights := weights,
      D_triplets := D_triplets, energy_index := 0 }
  unfold append_energies
  simp only
  by_cases h1 : tets.length = 0
  · have h2 : tets = [] := List.length_eq_zero.1 h1
    subst h2
    rfl
  · rw [if_neg h1, h]
    by_cases h3 : (kept_tets c x 0 tets).length = 0
    · rw [if_pos h3, List.length_eq_zero.1 h3]
      rfl
    · rw [if_neg h3]

theorem Example_flat_det : (tet_edges Example.meshX Example.flatTet).det = 0 := by
  simp [Matrix.det_fin_three, tet_edges, Example.meshX, Example.flatTet]

theorem Example_corner_det : (tet_edges Example.meshX Example.cornerTet).det = 1 := by
  simp [Matrix.det_fin_three, tet_edges, Example.meshX, Example.cornerTet]

theorem Example_init_tet_drop :
    ∀ (idx : ℤ) (ele : Fin 4 → Fin 5),
      (Example.collab.init_tet idx ele Example.meshX).energy_dim ≤ 0 →
        (Example.collab.init_tet idx ele Example.meshX).appended = [] := by
  intro idx ele
  simp only [Example.collab, Example.init_tet]
  split
  · intro _; rfl
  · intro h; exact absurd h (by simp)

/-- Instance of `append_energies_drops_failed`: on the two-tetrahedron mesh whose first
tetrahedron is flat, `append_energies` gives what it gives on the corner tetrahedron alone. -/
theorem append_energies_drops_failed_witness :
    (∀ (idx : ℤ) (ele : Fin 4 → Fin 5),
      (Example.collab.init_tet idx ele Example.meshX).energy_dim ≤ 0 →
        (Example.collab.init_tet idx ele Example.meshX).appended = []) ∧
    append_energies Example.collab Example.meshX [Example.flatTet, Example.cornerTet]
        [] [] [] [] =
      append_energies Example.collab Example.meshX [Example.cornerTet] [] [] [] [] := by
  refine ⟨Example_init_tet_drop, ?_⟩
  have h := append_energies_drops_failed Example.collab Example.meshX
    [Example.flatTet, Example.cornerTet] [] [] [] [] Example_init_tet_drop
  have hk : kept_tets Example.collab Example.meshX 0 [Example.flatTet, Example.cornerTet] =
      [Example.cornerTet] := by
    simp [kept_tets, Example.collab, Example.init_tet, Example_flat_det, Example_corner_det]
  rw [hk] at h
  exact h

/-! ## Assembly: the scale `dt2` and the empty triplet list -/

/-- `compute_matrices` ends normally when `append_energies` left a triplet. -/
theorem compute_matrices_ok_of_triplets {n0 nr0 : ℕ} (c : Collaborators) (options : Options)
    (V : MatrixX3 n) (T : List (Fin 4 → Fin n)) (old : Data n0 nr0) (hn : n ≠ 0)
    (hne : (append_energies c V T old.indices old.rest_volumes old.weights []).D_triplets ≠ []) :
    ∃ r, compute_matrices c options V T old = Outcome.ok r := by
  obtain ⟨k, rfl⟩ := Nat.exists_eq_succ_of_ne_zero hn
  unfold compute_matrices
  simp only
  cases hlast : (append_energies c V T old.indices old.rest_volumes old.weights
      []).D_triplets.getLast? with
  | none => exact absurd (List.getLast?_eq_none_iff.1 hlast) hne
  | some last => exact ⟨_, rfl⟩

theorem compute_matrices_DtW2 {n0 nr0 : ℕ} (c : Collaborators) (options : Options)
    (V : MatrixX3 n) (T : List (Fin 4 → Fin n)) (old : Data n0 nr0)
    (r : (nr : ℕ) × Data n nr) (h : compute_matrices c options V T old = Outcome.ok r) :
    r.2.DtW2 = compute_dt2 options • r.2.D.transpose *
      Matrix.diagonal (fun k : Fin r.1 => W2_diag r.2.indices r.2.weights k) := by
  unfold compute_matrices at h
  simp only at h
  split at h
  · exact absurd h (by simp)
  · split at h
    · exact absurd h (by simp)
    · injection h with h
      subst h
      rfl

theorem Example_append_corner :
    (append_energies Example.collab Example.meshX [Example.cornerTet] [] [] [] []).D_triplets
      ≠ [] := by
  simp [append_energies, append_energies_step, Example.collab, Example.init_tet,
    Example_corner_det]

/-- C6: what `compute_matrices` does with a negative timestep. At `timestep = -1/2` the
local `dt2` is `1/4`: the guard of lines 292-293, commented `static solve`, tests the square,
which is not `≤ 0`, so the scale is not the static `1 = max(timestep², 1)`, and the assembly
of the corner tetrahedron stores `DtW2 = (1/4)·Dt·W²`. The same timestep is static for the
other two readers of it: `init_solve` clamps it to `0`, so that `M_xbar[i] = m[i]·x[i]`, and
`solve` skips the velocity update and leaves the velocity of `init_solve`. -/
theorem compute_matrices_negative_step (c : Collaborators) (data : Data n nr) :
    Example.negativeStep.timestep_s ≤ 0 ∧
    compute_dt2 Example.negativeStep = 1 / 4 ∧
    max (Example.negativeStep.timestep_s * Example.negativeStep.timestep_s) 1 = 1 ∧
    compute_dt2 Example.negativeStep ≠
      max (Example.negativeStep.timestep_s * Example.negativeStep.timestep_s) 1 ∧
    (∃ r, compute_matrices Example.collab Example.negativeStep Example.meshX
        [Example.cornerTet] Data.fresh = Outcome.ok r ∧
      r.2.DtW2 = (1 / 4 : ℚ) • r.2.D.transpose *
        Matrix.diagonal (fun k : Fin r.1 => W2_diag r.2.indices r.2.weights k)) ∧
    (∀ i j, (init_solve Example.negativeStep data).M_xbar i j = data.m i * data.x i j) ∧
    (solve c Example.negativeStep data).2.v = (init_solve Example.negativeStep data).v := by
  have hts : Example.negativeStep.timestep_s = -1 / 2 := rfl
  have hdt2 : compute_dt2 Example.negativeStep = 1 / 4 := by
    unfold compute_dt2
    simp only [hts]
    norm_num
  have hmax : max (Example.negativeStep.timestep_s * Example.negativeStep.timestep_s) 1
      = 1 := by
    rw [hts]
    norm_num
  refine ⟨by rw [hts]; norm_num, hdt2, hmax, by rw [hdt2, hmax]; norm_num, ?_, ?_, ?_⟩
  · obtain ⟨r, hr⟩ := compute_matrices_ok_of_triplets Example.collab Example.negativeStep
      Example.meshX [Example.cornerTet] Data.fresh (by decide) Example_append_corner
    refine ⟨r, hr, ?_⟩
    rw [compute_matrices_DtW2 Example.collab Example.negativeStep Example.meshX
      [Example.cornerTet] Data.fresh r hr, hdt2]
  · intro i j
    have hclamp : max 0 Example.negativeStep.timestep_s = 0 := by
      rw [hts]
      norm_num
    simp only [init_solve, hclamp, zero_mul, add_zero]
  · obtain ⟨hv, -⟩ := solve_body_iterate_v_x_start c Example.negativeStep
      Example.negativeStep.max_admm_iters.toNat (init_solve Example.negativeStep data)
    have hneg : ¬ 0 < Example.negativeStep.timestep_s := by
      rw [hts]
      norm_num
    unfold solve
    simp only [solve_loop_state, gt_iff_lt, if_neg hneg]
    exact hv

/-- C10: what `Solver::init` does on a mesh without usable elements. With no tetrahedron, or
with every tetrahedron dropped by an energy term that appends nothing for it,
`append_energies` leaves the triplet list empty and `compute_matrices` reads `trips.back()`
of the empty list: the call ends in undefined behaviour, not in a thrown error. -/
theorem init_no_elements_undefined {n0 nr0 : ℕ} (c : Collaborators) (options : Options)
    (V : MatrixX3 n) (old : Data n0 nr0) :
    init c V [] (some options) (some old) = Outcome.undefined_behaviour ∧
    (∀ T : List (Fin 4 → Fin n),
      (∀ (idx : ℤ) (ele : Fin 4 → Fin n), (c.init_tet idx ele V).energy_dim ≤ 0 ∧
        (c.init_tet idx ele V).appended = []) →
      init c V T (some options) (some old) = Outcome.undefined_behaviour) ∧
    init Example.collab Example.meshX [Example.flatTet] (some Example.options)
      (some Data.fresh) = Outcome.undefined_behaviour := by
  have hall : ∀ {k k0 kr0 : ℕ} (c1 : Collaborators) (o1 : Options) (V1 : MatrixX3 k)
      (d1 : Data k0 kr0) (T : List (Fin 4 → Fin k)),
      (∀ (idx : ℤ) (ele : Fin 4 → Fin k), (c1.init_tet idx ele V1).energy_dim ≤ 0 ∧
        (c1.init_tet idx ele V1).appended = []) →
      init c1 V1 T (some o1) (some d1) = Outcome.undefined_behaviour := by
    intro k k0 kr0 c1 o1 V1 d1 T hT
    have hk : kept_tets c1 V1 0 T = [] := by
      generalize (0 : ℤ) = idx
      induction T with
      | nil => rfl
      | cons ele rest ih => rw [kept_tets, if_pos (hT idx ele).1]; exact ih
    have hfold := append_energies_fold_kept c1 V1 (fun idx ele _ => (hT idx ele).2) T
      { indices := d1.indices, rest_volumes := d1.rest_volumes, weights := d1.weights,
        D_triplets := [], energy_index := 0 }
    rw [hk] at hfold
    have htr : (append_energies c1 V1 T d1.indices d1.rest_volumes d1.weights []).D_triplets
        = [] := by
      unfold append_energies
      simp only
      split
      · rfl
      · rw [hfold]; rfl
    unfold init compute_matrices
    simp only [htr, List.getLast?_nil]
  refine ⟨?_, fun T hT => hall c options V old T hT, ?_⟩
  · unfold init compute_matrices
    simp [append_energies]
  · have htr : (append_energies Example.collab Example.meshX [Example.flatTet] Data.fresh.indices
        Data.fresh.rest_volumes Data.fresh.weights []).D_triplets = [] := by
      simp [append_energies, append_energies_step, Example.collab, Example.init_tet,
        Example_flat_det, Data.fresh]
    unfold init compute_matrices
    simp only [htr, List.getLast?_nil]

/-! ## Exact factorizations -/

theorem exactSolve_exact {k : ℕ} (A : Matrix (Fin k) (Fin k) ℚ) (hdet : A.det ≠ 0)
    (b : Fin k → ℚ) : A.mulVec (Example.exactSolve A b) = b := by
  unfold Example.exactSolve
  rw [Matrix.mulVec_smul, Matrix.mulVec_mulVec, Matrix.mul_adjugate, Matrix.smul_mulVec_assoc,
    Matrix.one_mulVec, smul_smul, inv_mul_cancel₀ hdet, one_smul]

theorem ldlt_exact_isUnit (A : Matrix (Fin n) (Fin n) ℚ) (solveA : (Fin n → ℚ) → Fin n → ℚ)
    (hex : ∀ b, A.mulVec (solveA b) = b) : IsUnit A.det :=
  (Matrix.isUnit_iff_isUnit_det A).1
    (Matrix.mulVec_surjective_iff_isUnit.1 fun y => ⟨solveA y, hex y⟩)

/-- With an exact factorization `solve_Ax_b` is multiplication by `A⁻¹`. -/
theorem solve_Ax_b_eq_inv_mul (data : Data n nr)
    (hex : ∀ b, data.A.mulVec (data.ldltA b) = b) (M : MatrixX3 n) :
    solve_Ax_b data M = data.A⁻¹ * M := by
  funext r i
  unfold solve_Ax_b
  rw [ldlt_exact_eq_inv data.A data.ldltA hex]
  rfl

theorem mulAxes_const (A : Matrix (Fin n) (Fin n) ℚ) (p : MatrixX3 n) :
    mulAxes (fun _ => A) p = A * p := rfl

/-! ## The ADMM fixed point -/

theorem solve_local_step_fold_id (c : Collaborators) (d : Data n nr)
    (hupd : ∀ (offset : ℤ) (rv w : ℚ), c.update offset rv w d.x d.Dx d.z d.u = (d.z, d.u))
    (l : List ℕ) : l.foldl (parallel_zu_update c) d = d := by
  induction l with
  | nil => rfl
  | cons i l ih =>
    have hstep : parallel_zu_update c d i = d := by
      unfold parallel_zu_update
      simp only [hupd]
    rw [List.foldl_cons, hstep, ih]

/-- One pass of the ADMM loop body at rest: only `l`, `K` and `b` may change. -/
theorem solve_body_at_rest (c : Collaborators) (options : Options) (d : Data n nr)
    (hA : d.A = d.DtW2 * d.D + Matrix.diagonal d.m)
    (hex : ∀ b, d.A.mulVec (d.ldltA b) = b)
    (hM : d.M_xbar = Matrix.diagonal d.m * d.x)
    (hz : d.z = d.D * d.x) (hu : d.u = 0)
    (hupd : ∀ (offset : ℤ) (rv w : ℚ), c.update offset rv w d.x d.Dx d.z d.u = (d.z, d.u))
    (hjac : (c.jacobian d.x).l_coeffs = []) :
    ∃ L KK B, solve_body c options d = { d with l := L, K := KK, b := B } := by
  have hloc : solve_local_step c d = d := solve_local_step_fold_id c d hupd _
  have hcons : update_constraints c d =
      { d with l := d.l.map fun _ => 0, K := fun i => (d.K i).setZero } := by
    unfold update_constraints
    simp [hjac]
  have hb : d.M_xbar + d.DtW2 * (d.z - d.u) = d.A * d.x := by
    rw [hM, hz, hu, hA, sub_zero, Matrix.add_mul, Matrix.mul_assoc, add_comm]
  refine ⟨d.l.map fun _ => 0, fun i => (d.K i).setZero, d.A * d.x, ?_⟩
  unfold solve_body
  simp only [hloc, hcons, hb]
  unfold solve_conjugate_gradients solve_conjugate_gradients_iters
  simp only [SparseMatrix_nonZeros_setZero, max_self, if_true]
  have hx : solve_Ax_b
      { d with l := d.l.map fun _ => 0, K := fun i => (d.K i).setZero, b := d.A * d.x }
      (d.A * d.x) = d.x := by
    refine (solve_Ax_b_eq_inv_mul
      { d with l := d.l.map fun _ => 0, K := fun i => (d.K i).setZero, b := d.A * d.x }
      hex (d.A * d.x)).trans ?_
    show d.A⁻¹ * (d.A * d.x) = d.x
    rw [← Matrix.mul_assoc, Matrix.nonsing_inv_mul _ (ldlt_exact_isUnit d.A d.ldltA hex),
      Matrix.one_mul]
  rw [hx]

theorem solve_body_iterate_at_rest (c : Collaborators) (options : Options) (k : ℕ) :
    ∀ d : Data n nr,
      d.A = d.DtW2 * d.D + Matrix.diagonal d.m →
      (∀ b, d.A.mulVec (d.ldltA b) = b) →
      d.M_xbar = Matrix.diagonal d.m * d.x →
      d.z = d.D * d.x → d.u = 0 →
      (∀ (offset : ℤ) (rv w : ℚ), c.update offset rv w d.x d.Dx d.z d.u = (d.z, d.u)) →
      (c.jacobian d.x).l_coeffs = [] →
      ∃ L KK B, (solve_body c options)^[k] d = { d with l := L, K := KK, b := B } := by
  induction k with
  | zero => intro d _ _ _ _ _ _ _; exact ⟨d.l, d.K, d.b, rfl⟩
  | succ k ih =>
    intro d hA hex hM hz hu hupd hjac
    obtain ⟨L, KK, B, h1⟩ := solve_body_at_rest c options d hA hex hM hz hu hupd hjac
    obtain ⟨L2, KK2, B2, h2⟩ := ih { d with l := L, K := KK, b := B } hA hex hM hz hu hupd hjac
    refine ⟨L2, KK2, B2, ?_⟩
    rw [Function.iterate_succ_apply, h1, h2]

/-- C8: ADMM fixed point. For a state with `A = DtW2·D + diag(m)` and an exact factorization,
zero gravity, zero entry velocity, an energy-term update that returns `z` and `u` unchanged at
the rest configuration (`z = D·x`, `u = 0`) and a constraint source that returns no
constraint at `x`, `Solver::solve` leaves `x` at its entry value and ends with `z = D·x` and
`u = 0`, for every `max_admm_iters`. Positive definiteness of `A` is not needed beyond the
exactness of the factorization. -/
theorem solve_fixed_point (c : Collaborators) (options : Options) (data : Data n nr)
    (hA : data.A = data.DtW2 * data.D + Matrix.diagonal data.m)
    (hex : ∀ b, data.A.mulVec (data.ldltA b) = b)
    (hgrav : options.grav = 0) (hv : data.v = 0)
    (hupd : ∀ (offset : ℤ) (rv w : ℚ),
      c.update offset rv w data.x ⟨nr, data.D * data.x⟩ (data.D * data.x) 0 =
        (data.D * data.x, 0))
    (hjac : (c.jacobian data.x).l_coeffs = []) :
    (solve c options data).2.x = data.x ∧
    (solve c options data).2.z = data.D * data.x ∧
    (solve c options data).2.u = 0 := by
  have hM : (init_solve options data).M_xbar =
      Matrix.diagonal (init_solve options data).m * (init_solve options data).x := by
    funext i j
    simp [init_solve, hgrav, hv, Matrix.diagonal_mul]
  obtain ⟨L, KK, B, hit⟩ := solve_body_iterate_at_rest c options
    options.max_admm_iters.toNat (init_solve options data) hA hex hM rfl rfl hupd hjac
  unfold solve
  simp only [solve_loop_state, hit]
  split <;> exact ⟨rfl, rfl, rfl⟩

theorem Example_spring_exact :
    ∀ b, Example.springState.A.mulVec (Example.springState.ldltA b) = b := by
  intro b
  apply exactSolve_exact
  simp [Matrix.det_fin_two, Example.springState]
  norm_num

/-- Instance of `solve_fixed_point`: the two-vertex state at rest above the floor, without
gravity. -/
theorem solve_fixed_point_witness :
    Example.springState.A =
      Example.springState.DtW2 * Example.springState.D +
        Matrix.diagonal Example.springState.m ∧
    (∀ b, Example.springState.A.mulVec (Example.springState.ldltA b) = b) ∧
    Example.noGravity.grav = 0 ∧ Example.springState.v = 0 ∧
    (Example.collab.jacobian Example.springState.x).l_coeffs = [] ∧
    (solve Example.collab Example.noGravity Example.springState).2.x =
      Matrix.of ![![0, 0, 1], ![0, 0, 2]] := by
  have hA : Example.springState.A =
      Example.springState.DtW2 * Example.springState.D +
        Matrix.diagonal Example.springState.m := by
    ext i j
    fin_cases i <;> fin_cases j <;>
      simp [Example.springState, Matrix.mul_apply, Matrix.diagonal] <;> norm_num
  have hjac : (Example.collab.jacobian Example.springState.x).l_coeffs = [] := by
    simp [Example.collab, Example.jacobian, Example.springState, List.finRange]
  exact ⟨hA, Example_spring_exact, rfl, rfl, hjac,
    (solve_fixed_point Example.collab Example.noGravity Example.springState hA
      Example_spring_exact rfl rfl (fun _ _ _ => rfl) hjac).1⟩

/-! ## Conjugate gradients: inner product and positive definiteness -/

theorem mat_inner_eq_sum_dot {r : ℕ} (P Q : MatrixX3 r) :
    mat_inner P Q = ∑ j : Fin 3, Matrix.dotProduct (fun i => P i j) (fun i => Q i j) := by
  unfold mat_inner Matrix.dotProduct
  exact Finset.sum_comm

theorem mat_inner_zero_left {r : ℕ} (Q : MatrixX3 r) : mat_inner 0 Q = 0 := by
  simp [mat_inner]

/-- For a positive definite `A`, `⟨p, A p⟩ = 0` forces `p = 0`. -/
theorem mat_inner_mul_self_eq_zero (A : Matrix (Fin n) (Fin n) ℚ)
    (hpd : ∀ v : Fin n → ℚ, v ≠ 0 → 0 < Matrix.dotProduct v (A.mulVec v))
    (p : MatrixX3 n) (h : mat_inner p (A * p) = 0) : p = 0 := by
  rw [mat_inner_eq_sum_dot] at h
  have hnn : ∀ j ∈ (Finset.univ : Finset (Fin 3)),
      0 ≤ Matrix.dotProduct (fun i => p i j) (fun i => (A * p) i j) := by
    intro j _
    by_cases hz : (fun i => p i j) = 0
    · rw [hz]; simp
    · exact le_of_lt (hpd _ hz)
  have hall := (Finset.sum_eq_zero_iff_of_nonneg hnn).1 h
  funext i j
  by_contra hne
  have hz : (fun i => p i j) ≠ 0 := by
    intro h0
    exact hne (congrFun h0 i)
  have hpos := hpd _ hz
  have h0 := hall j (Finset.mem_univ j)
  have : Matrix.dotProduct (fun i => p i j) (A.mulVec fun i => p i j) =
      Matrix.dotProduct (fun i => p i j) (fun i => (A * p) i j) := rfl
  rw [this, h0] at hpos
  exact lt_irrefl 0 hpos

/-! ## The constrained path with a vanishing penalty term -/

theorem cg_body_p_zero (options : Options) (data : Data n nr) (s : CGState n)
    (hp : s.p = 0) : cg_body options data s = LoopStep.brk s := by
  unfold cg_body
  simp [hp, mat_inner_zero_left]

/-- One pass of the CG body when `A[i] = A`, the preconditioner is exact and `p = z = A⁻¹ r`:
the step size is one and the residual becomes zero. -/
theorem cg_body_exact_step (options : Options) (data : Data n nr)
    (hcgA : cg_A data = fun _ => data.A)
    (hex : ∀ b, data.A.mulVec (data.ldltA b) = b)
    (s : CGState n) (hz : s.z = data.A⁻¹ * s.r) (hp : s.p = s.z)
    (hq : mat_inner s.z s.r ≠ 0) :
    cg_body options data s =
      if lpNormInf (0 : MatrixX3 n) < options.min_res then
        LoopStep.brk { s with x := s.x + s.z, r := 0 }
      else LoopStep.next { x := s.x + s.z, r := 0, z := 0, p := 0 } := by
  have hunit := ldlt_exact_isUnit data.A data.ldltA hex
  have hAp : mulAxes (cg_A data) s.p = s.r := by
    rw [hcgA, mulAxes_const, hp, hz, ← Matrix.mul_assoc, Matrix.mul_nonsing_inv _ hunit,
      Matrix.one_mul]
  have hs0 : solve_Ax_b data (0 : MatrixX3 n) = 0 := by
    rw [solve_Ax_b_eq_inv_mul data hex, Matrix.mul_zero]
  unfold cg_body
  simp only [hAp]
  rw [hp, if_neg hq, if_neg hq, div_self hq, one_smul, one_smul, sub_self, hs0,
    mat_inner_zero_left, zero_div, zero_smul, add_zero]

/-- C7: fast path / constrained path agreement. For a state with stored constraint entries
whose penalty terms vanish (`spring_k·Kᵗ·K = 0` and `spring_k·Kᵗ·l = 0` on the three axes),
a positive definite `A` with an exact factorization, and `max_cg_iters ≥ 1`, the constrained
CG path returns the `x` of the fast path, `A⁻¹·b` on each axis, for every starting `x`, right
hand side and `min_res`. -/
theorem constrained_path_agrees_with_fast_path (options : Options) (data : Data n nr)
    (hstored : ∃ i, (data.K i).nonZeros ≠ 0)
    (hKK : ∀ i, data.spring_k •
      (((data.K i).toMatrix n).transpose * (data.K i).toMatrix n) = 0)
    (hKl : ∀ i, (data.spring_k • ((data.K i).toMatrix n).transpose).mulVec
      (fun c => data.l.getD c 0) = 0)
    (hex : ∀ b, data.A.mulVec (data.ldltA b) = b)
    (hpd : ∀ v : Fin n → ℚ, v ≠ 0 → 0 < Matrix.dotProduct v (data.A.mulVec v))
    (hiters : 1 ≤ options.max_cg_iters) :
    (solve_conjugate_gradients options data).x = solve_Ax_b data data.b ∧
    ∀ i, (fun r => (solve_conjugate_gradients options data).x r i) =
      data.A⁻¹.mulVec (fun k => data.b k i) := by
  have hunit := ldlt_exact_isUnit data.A data.ldltA hex
  have hcgA : cg_A data = fun _ => data.A := by
    funext i
    unfold cg_A
    rw [hKK i, add_zero]
  have hcgb : cg_b data = data.b := by
    funext r i
    unfold cg_b
    rw [hKl i]
    simp
  have hpath : ¬ max (max (data.K 0).nonZeros (data.K 1).nonZeros) (data.K 2).nonZeros = 0 := by
    obtain ⟨i, hi⟩ := hstored
    intro h0
    have h1 : (data.K 0).nonZeros = 0 ∧ (data.K 1).nonZeros = 0 ∧ (data.K 2).nonZeros = 0 := by
      omega
    fin_cases i
    · exact hi h1.1
    · exact hi h1.2.1
    · exact hi h1.2.2
  have hinit : cg_init data =
      { x := data.x, r := data.b - data.A * data.x,
        z := data.A⁻¹ * (data.b - data.A * data.x),
        p := data.A⁻¹ * (data.b - data.A * data.x) } := by
    unfold cg_init
    simp only [hcgA, hcgb, mulAxes_const, solve_Ax_b_eq_inv_mul data hex]
  have hsum : data.x + data.A⁻¹ * (data.b - data.A * data.x) = data.A⁻¹ * data.b := by
    rw [Matrix.mul_sub, ← Matrix.mul_assoc, Matrix.nonsing_inv_mul _ hunit, Matrix.one_mul]
    abel
  have hx : (forLoop options.max_cg_iters (cg_body options data) 0 (cg_init data)).2.x =
      data.A⁻¹ * data.b := by
    rw [forLoop_of_lt _ _ _ _ (by omega), hinit]
    by_cases hq : mat_inner (data.A⁻¹ * (data.b - data.A * data.x))
        (data.b - data.A * data.x) = 0
    · have hAz : data.A * (data.A⁻¹ * (data.b - data.A * data.x)) =
          data.b - data.A * data.x := by
        rw [← Matrix.mul_assoc, Matrix.mul_nonsing_inv _ hunit, Matrix.one_mul]
      have hz0 : data.A⁻¹ * (data.b - data.A * data.x) = 0 := by
        apply mat_inner_mul_self_eq_zero data.A hpd
        rw [hAz]
        exact hq
      have hbody := cg_body_p_zero options data
        { x := data.x, r := data.b - data.A * data.x,
          z := data.A⁻¹ * (data.b - data.A * data.x),
          p := data.A⁻¹ * (data.b - data.A * data.x) } hz0
      rw [hbody]
      simp only
      rw [← hsum, hz0, add_zero]
    · have hbody := cg_body_exact_step options data hcgA hex
        { x := data.x, r := data.b - data.A * data.x,
          z := data.A⁻¹ * (data.b - data.A * data.x),
          p := data.A⁻¹ * (data.b - data.A * data.x) } rfl rfl hq
      rw [hbody]
      by_cases hres : lpNormInf (0 : MatrixX3 n) < options.min_res
      · simp only [if_pos hres]
        exact hsum
      · simp only [if_neg hres]
        by_cases hlt : (0 : ℤ) + 1 < options.max_cg_iters
        · rw [forLoop_of_lt _ _ _ _ hlt, cg_body_p_zero options data _ rfl]
          exact hsum
        · rw [forLoop_of_not_lt _ _ _ _ hlt]
          exact hsum
  have hres : (solve_conjugate_gradients options data).x = data.A⁻¹ * data.b := by
    unfold solve_conjugate_gradients solve_conjugate_gradients_iters
    rw [if_neg hpath]
    exact hx
  constructor
  · rw [hres, solve_Ax_b_eq_inv_mul data hex]
  · intro i
    rw [hres]
    rfl

/-! ## Conjugate gradients: the energy along the iterations -/

theorem mat_inner_comm {r : ℕ} (P Q : MatrixX3 r) : mat_inner P Q = mat_inner Q P := by
  unfold mat_inner
  exact Finset.sum_congr rfl fun i _ => Finset.sum_congr rfl fun j _ => mul_comm _ _

theorem mat_inner_add_right {r : ℕ} (P Q R : MatrixX3 r) :
    mat_inner P (Q + R) = mat_inner P Q + mat_inner P R := by
  simp [mat_inner, mul_add, Finset.sum_add_distrib]

theorem mat_inner_sub_right {r : ℕ} (P Q R : MatrixX3 r) :
    mat_inner P (Q - R) = mat_inner P Q - mat_inner P R := by
  simp [mat_inner, mul_sub, Finset.sum_sub_distrib]

theorem mat_inner_smul_right {r : ℕ} (a : ℚ) (P Q : MatrixX3 r) :
    mat_inner P (a • Q) = a * mat_inner P Q := by
  simp only [mat_inner, Matrix.smul_apply, smul_eq_mul, Finset.mul_sum]
  exact Finset.sum_congr rfl fun i _ => Finset.sum_congr rfl fun j _ => by ring

theorem mat_inner_add_left {r : ℕ} (P Q R : MatrixX3 r) :
    mat_inner (P + Q) R = mat_inner P R + mat_inner Q R := by
  rw [mat_inner_comm, mat_inner_add_right, mat_inner_comm R P, mat_inner_comm R Q]

theorem mat_inner_smul_left {r : ℕ} (a : ℚ) (P Q : MatrixX3 r) :
    mat_inner (a • P) Q = a * mat_inner P Q := by
  rw [mat_inner_comm, mat_inner_smul_right, mat_inner_comm]

theorem mulAxes_add (A : Fin 3 → Matrix (Fin n) (Fin n) ℚ) (p q : MatrixX3 n) :
    mulAxes A (p + q) = mulAxes A p + mulAxes A q := by
  funext r i
  show (A i).mulVec ((fun k => p k i) + fun k => q k i) r = _
  rw [Matrix.mulVec_add]
  rfl

theorem mulAxes_smul (A : Fin 3 → Matrix (Fin n) (Fin n) ℚ) (a : ℚ) (p : MatrixX3 n) :
    mulAxes A (a • p) = a • mulAxes A p := by
  funext r i
  show (A i).mulVec (a • fun k => p k i) r = _
  rw [Matrix.mulVec_smul]
  rfl

/-- With symmetric `A[i]` the form `⟨x, A p⟩` is symmetric. -/
theorem mat_inner_mulAxes_symm (A : Fin 3 → Matrix (Fin n) (Fin n) ℚ)
    (hsymm : ∀ i, (A i).IsSymm) (x p : MatrixX3 n) :
    mat_inner x (mulAxes A p) = mat_inner p (mulAxes A x) := by
  rw [mat_inner_eq_sum_dot, mat_inner_eq_sum_dot]
  refine Finset.sum_congr rfl fun j _ => ?_
  show Matrix.dotProduct (fun i => x i j) ((A j).mulVec fun k => p k j) =
    Matrix.dotProduct (fun i => p i j) ((A j).mulVec fun k => x k j)
  rw [Matrix.dotProduct_mulVec, ← Matrix.mulVec_transpose, (hsymm j).eq,
    Matrix.dotProduct_comm]

theorem mat_inner_mulAxes_nonneg (A : Fin 3 → Matrix (Fin n) (Fin n) ℚ)
    (hpd : ∀ i (v : Fin n → ℚ), v ≠ 0 → 0 < Matrix.dotProduct v ((A i).mulVec v))
    (p : MatrixX3 n) : 0 ≤ mat_inner p (mulAxes A p) := by
  rw [mat_inner_eq_sum_dot]
  refine Finset.sum_nonneg fun j _ => ?_
  show 0 ≤ Matrix.dotProduct (fun i => p i j) ((A j).mulVec fun k => p k j)
  by_cases hz : (fun i => p i j) = 0
  · rw [hz]; simp
  · exact le_of_lt (hpd j _ hz)

/-- Energy after a step of length `a` along `p` from a point with residual `r`. -/
theorem cg_energy_step (data : Data n nr) (hsymm : ∀ i, (cg_A data i).IsSymm)
    (x p : MatrixX3 n) (a : ℚ) :
    cg_energy data (x + a • p) =
      cg_energy data x - a * mat_inner p (cg_b data - mulAxes (cg_A data) x) +
        1 / 2 * a * a * mat_inner p (mulAxes (cg_A data) p) := by
  unfold cg_energy
  rw [mulAxes_add, mulAxes_smul]
  simp only [mat_inner_add_left, mat_inner_add_right, mat_inner_smul_left,
    mat_inner_smul_right, mat_inner_sub_right]
  rw [mat_inner_mulAxes_symm (cg_A data) hsymm x p, mat_inner_comm (cg_b data) p]
  ring

/-- The energy does not rise along a CG step: with `q = ⟨p, r⟩` and `⟨p, A p⟩ > 0`, the step
of length `q / ⟨p, A p⟩` changes the energy by `-q² / (2·⟨p, A p⟩)`. -/
theorem cg_energy_step_le (data : Data n nr) (hsymm : ∀ i, (cg_A data i).IsSymm)
    (x p : MatrixX3 n) (q : ℚ)
    (hq : mat_inner p (cg_b data - mulAxes (cg_A data) x) = q)
    (hpos : 0 < mat_inner p (mulAxes (cg_A data) p)) :
    cg_energy data (x + (q / mat_inner p (mulAxes (cg_A data) p)) • p) ≤ cg_energy data x := by
  rw [cg_energy_step data hsymm, hq]
  have h : q / mat_inner p (mulAxes (cg_A data) p) * q -
      1 / 2 * (q / mat_inner p (mulAxes (cg_A data) p)) *
        (q / mat_inner p (mulAxes (cg_A data) p)) * mat_inner p (mulAxes (cg_A data) p) =
      1 / 2 * (q * q / mat_inner p (mulAxes (cg_A data) p)) := by
    field_simp
    ring
  have h2 : 0 ≤ q * q / mat_inner p (mulAxes (cg_A data) p) :=
    div_nonneg (mul_self_nonneg q) (le_of_lt hpos)
  linarith

/-- One pass of the CG body: the new `r` is the residual of the new `x`, the energy does not
rise, and the invariant holds again when the loop goes on. -/
theorem cg_body_energy (options : Options) (data : Data n nr)
    (hsymm : ∀ i, (cg_A data i).IsSymm)
    (hpd : ∀ i (v : Fin n → ℚ), v ≠ 0 → 0 < Matrix.dotProduct v ((cg_A data i).mulVec v))
    (s : CGState n) (hinv : CGInv data s) :
    ∃ s1, ((cg_body options data s = LoopStep.next s1 ∧ CGInv data s1) ∨
        cg_body options data s = LoopStep.brk s1) ∧
      s1.r = cg_b data - mulAxes (cg_A data) s1.x ∧
      cg_energy data s1.x ≤ cg_energy data s.x := by
  obtain ⟨hr, hpz⟩ := hinv
  by_cases h1 : mat_inner s.p (mulAxes (cg_A data) s.p) = 0
  · refine ⟨s, Or.inr ?_, hr, le_refl _⟩
    unfold cg_body
    simp only [h1, if_true]
  by_cases h2 : mat_inner s.z s.r = 0
  · refine ⟨s, Or.inr ?_, hr, le_refl _⟩
    unfold cg_body
    simp only [h1, h2, if_true, if_false]
  have hpos : 0 < mat_inner s.p (mulAxes (cg_A data) s.p) :=
    lt_of_le_of_ne (mat_inner_mulAxes_nonneg _ hpd s.p) (Ne.symm h1)
  have hx := cg_energy_step_le data hsymm s.x s.p (mat_inner s.z s.r) (by rw [← hr, hpz]) hpos
  have hr1 : s.r - (mat_inner s.z s.r / mat_inner s.p (mulAxes (cg_A data) s.p)) •
        mulAxes (cg_A data) s.p =
      cg_b data - mulAxes (cg_A data)
        (s.x + (mat_inner s.z s.r / mat_inner s.p (mulAxes (cg_A data) s.p)) • s.p) := by
    rw [mulAxes_add, mulAxes_smul, hr]
    abel
  by_cases h3 : lpNormInf (s.r - (mat_inner s.z s.r /
      mat_inner s.p (mulAxes (cg_A data) s.p)) • mulAxes (cg_A data) s.p) < options.min_res
  · refine ⟨{ s with
        x := s.x + (mat_inner s.z s.r / mat_inner s.p (mulAxes (cg_A data) s.p)) • s.p
        r := s.r - (mat_inner s.z s.r / mat_inner s.p (mulAxes (cg_A data) s.p)) •
          mulAxes (cg_A data) s.p }, Or.inr ?_, hr1, hx⟩
    unfold cg_body
    simp only [h1, h2, h3, if_true, if_false]
  · refine ⟨{ x := s.x + (mat_inner s.z s.r / mat_inner s.p (mulAxes (cg_A data) s.p)) • s.p
              r := s.r - (mat_inner s.z s.r / mat_inner s.p (mulAxes (cg_A data) s.p)) •
                mulAxes (cg_A data) s.p
              z := solve_Ax_b data (s.r - (mat_inner s.z s.r /
                mat_inner s.p (mulAxes (cg_A data) s.p)) • mulAxes (cg_A data) s.p)
              p := solve_Ax_b data (s.r - (mat_inner s.z s.r /
                  mat_inner s.p (mulAxes (cg_A data) s.p)) • mulAxes (cg_A data) s.p) +
                (mat_inner (solve_Ax_b data (s.r - (mat_inner s.z s.r /
                  mat_inner s.p (mulAxes (cg_A data) s.p)) • mulAxes (cg_A data) s.p))
                  (s.r - (mat_inner s.z s.r / mat_inner s.p (mulAxes (cg_A data) s.p)) •
                    mulAxes (cg_A data) s.p) / mat_inner s.z s.r) • s.p },
        Or.inl ⟨?_, hr1, ?_⟩, hr1, hx⟩
    · unfold cg_body
      simp only [h1, h2, h3, if_false]
    · have hp0 : mat_inner s.p (s.r - (mat_inner s.z s.r /
          mat_inner s.p (mulAxes (cg_A data) s.p)) • mulAxes (cg_A data) s.p) = 0 := by
        rw [mat_inner_sub_right, mat_inner_smul_right, hpz, div_mul_cancel₀ _ h1, sub_self]
      simp only
      rw [mat_inner_add_left, mat_inner_smul_left, hp0, mul_zero, add_zero]

theorem cg_init_inv (data : Data n nr) : CGInv data (cg_init data) := ⟨rfl, rfl⟩

/-- Capping the CG loop one iteration later does not raise the energy of the result. -/
theorem forLoop_cg_energy (options : Options) (data : Data n nr)
    (hsymm : ∀ i, (cg_A data i).IsSymm)
    (hpd : ∀ i (v : Fin n → ℚ), v ≠ 0 → 0 < Matrix.dotProduct v ((cg_A data i).mulVec v))
    (k : ℤ) (d : ℕ) :
    ∀ (iter : ℤ) (s : CGState n), (k + 1 - iter).toNat = d → CGInv data s →
      cg_energy data (forLoop (k + 1) (cg_body options data) iter s).2.x ≤
        cg_energy data (forLoop k (cg_body options data) iter s).2.x := by
  induction d with
  | zero =>
    intro iter s hd _
    rw [forLoop_of_not_lt _ _ _ _ (by omega), forLoop_of_not_lt _ _ _ _ (by omega)]
  | succ d ih =>
    intro iter s hd hinv
    obtain ⟨s1, hbody, -, hle⟩ := cg_body_energy options data hsymm hpd s hinv
    by_cases hk : iter < k
    · rw [forLoop_of_lt _ _ _ _ (by omega), forLoop_of_lt _ _ _ _ hk]
      rcases hbody with ⟨hb, hinv1⟩ | hb
      · rw [hb]
        exact ih (iter + 1) s1 (by omega) hinv1
      · rw [hb]
    · rw [forLoop_of_lt _ _ _ _ (by omega), forLoop_of_not_lt _ _ _ _ hk]
      rcases hbody with ⟨hb, -⟩ | hb
      · rw [hb]
        simp only
        rw [forLoop_of_not_lt _ _ _ _ (by omega)]
        exact hle
      · rw [hb]
        exact hle

/-- C9 (as amended): for symmetric positive definite `A[i] = A + spring_k·Kᵗ·K`, the energy
`Σ_axes ½·xᵀ·A[i]·x − b[i]ᵀ·x` of the iterate `x` does not rise along the CG loop: the result
of running at most `k + 1` iterations has an energy no larger than the result of at most `k`
iterations, and every such result has an energy no larger than the starting `x`. No
assumption on the preconditioner is needed. -/
theorem cg_energy_monotone (options : Options) (data : Data n nr)
    (hsymm : ∀ i, (cg_A data i).IsSymm)
    (hpd : ∀ i (v : Fin n → ℚ), v ≠ 0 → 0 < Matrix.dotProduct v ((cg_A data i).mulVec v))
    (k : ℤ) :
    cg_energy data (forLoop (k + 1) (cg_body options data) 0 (cg_init data)).2.x ≤
      cg_energy data (forLoop k (cg_body options data) 0 (cg_init data)).2.x ∧
    cg_energy data (forLoop k (cg_body options data) 0 (cg_init data)).2.x ≤
      cg_energy data data.x := by
  have hstep : ∀ j : ℤ,
      cg_energy data (forLoop (j + 1) (cg_body options data) 0 (cg_init data)).2.x ≤
        cg_energy data (forLoop j (cg_body options data) 0 (cg_init data)).2.x :=
    fun j => forLoop_cg_energy options data hsymm hpd j _ 0 (cg_init data) rfl
      (cg_init_inv data)
  refine ⟨hstep k, ?_⟩
  have hnat : ∀ m : ℕ,
      cg_energy data (forLoop (m : ℤ) (cg_body options data) 0 (cg_init data)).2.x ≤
        cg_energy data data.x := by
    intro m
    induction m with
    | zero =>
      rw [forLoop_of_not_lt _ _ _ _ (by simp)]
      exact le_refl _
    | succ m ih =>
      have h := hstep (m : ℤ)
      push_cast
      exact le_trans h ih
  by_cases hk : 0 ≤ k
  · have h := hnat k.toNat
    rwa [Int.toNat_of_nonneg hk] at h
  · rw [forLoop_of_not_lt _ _ _ _ (by omega)]
    exact le_refl _

/-! ## A system on which the residual norm grows -/

theorem le_lpNormInf {r : ℕ} (M : MatrixX3 r) (i : Fin r) (j : Fin 3) :
    |M i j| ≤ lpNormInf M := by
  unfold lpNormInf
  exact (Finset.le_fold_max _).2 (Or.inr ⟨(i, j), Finset.mem_univ _, le_refl _⟩)

theorem lpNormInf_le {r : ℕ} (M : MatrixX3 r) (q : ℚ) (hq : 0 ≤ q)
    (h : ∀ i j, |M i j| ≤ q) : lpNormInf M ≤ q := by
  unfold lpNormInf
  exact (Finset.fold_max_le _).2 ⟨hq, fun ij _ => h ij.1 ij.2⟩

theorem Example_stiff_cg_A (i : Fin 3) :
    cg_A Example.stiffAxisState i = Matrix.of ![![if i = 1 then 100 else 1]] := by
  ext a b
  fin_cases a
  fin_cases b
  fin_cases i
  · simp [cg_A, Example.stiffAxisState, SparseMatrix.toMatrix, SparseMatrix.coeff,
      Matrix.mul_apply]
  · simp [cg_A, Example.stiffAxisState, SparseMatrix.toMatrix, SparseMatrix.coeff,
      Matrix.mul_apply]
    norm_num
  · simp [cg_A, Example.stiffAxisState, SparseMatrix.toMatrix, SparseMatrix.coeff,
      Matrix.mul_apply]

theorem Example_stiff_cg_b :
    cg_b Example.stiffAxisState = Matrix.of ![![1, 1 / 10, 0]] := by
  ext a i
  fin_cases a
  fin_cases i <;>
    simp [cg_b, Example.stiffAxisState, SparseMatrix.toMatrix, SparseMatrix.coeff,
      Matrix.mulVec, Matrix.dotProduct]

theorem Example_stiff_mulAxes (p : MatrixX3 1) :
    mulAxes (cg_A Example.stiffAxisState) p =
      Matrix.of ![![p 0 0, 100 * p 0 1, p 0 2]] := by
  ext a i
  fin_cases a
  fin_cases i <;> simp [mulAxes, Example_stiff_cg_A, Matrix.mulVec, Matrix.dotProduct]

theorem Example_stiff_inner (p q : MatrixX3 1) :
    mat_inner p q = p 0 0 * q 0 0 + p 0 1 * q 0 1 + p 0 2 * q 0 2 := by
  simp [mat_inner, Fin.sum_univ_three]

theorem Example_stiff_init :
    cg_init Example.stiffAxisState =
      { x := 0, r := Matrix.of ![![1, 1 / 10, 0]], z := Matrix.of ![![1, 1 / 10, 0]],
        p := Matrix.of ![![1, 1 / 10, 0]] } := by
  unfold cg_init
  simp only [Example_stiff_cg_b, Example_stiff_mulAxes]
  have h : (Matrix.of ![![1, 1 / 10, 0]] : MatrixX3 1) -
      Matrix.of ![![Example.stiffAxisState.x 0 0, 100 * Example.stiffAxisState.x 0 1,
        Example.stiffAxisState.x 0 2]] = Matrix.of ![![1, 1 / 10, 0]] := by
    ext a i
    fin_cases a
    fin_cases i <;> simp [Example.stiffAxisState]
  rw [h]
  rfl

theorem Example_stiff_symm (i : Fin 3) : (cg_A Example.stiffAxisState i).IsSymm := by
  rw [Example_stiff_cg_A]
  ext a b
  fin_cases a
  fin_cases b
  rfl

theorem Example_stiff_pd (i : Fin 3) (v : Fin 1 → ℚ) (hv : v ≠ 0) :
    0 < Matrix.dotProduct v ((cg_A Example.stiffAxisState i).mulVec v) := by
  have h0 : v 0 ≠ 0 := by
    intro h
    apply hv
    funext a
    fin_cases a
    exact h
  have hsq : 0 < v 0 * v 0 := mul_self_pos.2 h0
  rw [Example_stiff_cg_A]
  fin_cases i <;> simp [Matrix.mulVec, Matrix.dotProduct] <;> nlinarith

theorem cg_body_next (options : Options) (data : Data n nr) (s : CGState n)
    (h1 : mat_inner s.p (mulAxes (cg_A data) s.p) ≠ 0) (h2 : mat_inner s.z s.r ≠ 0)
    (h3 : ¬ lpNormInf (s.r - (mat_inner s.z s.r / mat_inner s.p (mulAxes (cg_A data) s.p)) •
      mulAxes (cg_A data) s.p) < options.min_res) :
    ∃ s1, cg_body options data s = LoopStep.next s1 ∧
      s1.r = s.r - (mat_inner s.z s.r / mat_inner s.p (mulAxes (cg_A data) s.p)) •
        mulAxes (cg_A data) s.p := by
  unfold cg_body
  simp only [h1, h2, h3, if_false]
  exact ⟨_, rfl, rfl⟩

theorem Example_stiff_r1 :
    (Matrix.of ![![1, 1 / 10, 0]] : MatrixX3 1) -
      (mat_inner (Matrix.of ![![1, 1 / 10, 0]] : MatrixX3 1) (Matrix.of ![![1, 1 / 10, 0]]) /
        mat_inner (Matrix.of ![![1, 1 / 10, 0]] : MatrixX3 1)
          (mulAxes (cg_A Example.stiffAxisState) (Matrix.of ![![1, 1 / 10, 0]]))) •
        mulAxes (cg_A Example.stiffAxisState) (Matrix.of ![![1, 1 / 10, 0]]) =
      Matrix.of ![![99 / 200, -99 / 20, 0]] := by
  rw [Example_stiff_mulAxes, Example_stiff_inner, Example_stiff_inner]
  ext a i
  fin_cases a
  fin_cases i <;> simp <;> norm_num

/-- C9, the claim as stated fails: on the one-vertex system with `A[0] = A[2] = 1`,
`A[1] = 100` (all symmetric positive definite, preconditioner exact) and right-hand side
`(1, 1/10, 0)`, the first CG iteration is performed and takes the infinity norm of the
residual from `1` to `99/20`. -/
theorem cg_residual_norm_counterexample :
    (Example.stiffAxisState.K 1).nonZeros ≠ 0 ∧
    (∀ b, Example.stiffAxisState.A.mulVec (Example.stiffAxisState.ldltA b) = b) ∧
    (∀ i, (cg_A Example.stiffAxisState i).IsSymm) ∧
    (∀ i (v : Fin 1 → ℚ), v ≠ 0 →
      0 < Matrix.dotProduct v ((cg_A Example.stiffAxisState i).mulVec v)) ∧
    ∃ s1, cg_body Example.options Example.stiffAxisState (cg_init Example.stiffAxisState) =
        LoopStep.next s1 ∧
      lpNormInf (cg_init Example.stiffAxisState).r = 1 ∧
      lpNormInf s1.r = 99 / 20 ∧
      ¬ lpNormInf s1.r ≤ lpNormInf (cg_init Example.stiffAxisState).r := by
  refine ⟨by simp [Example.stiffAxisState, SparseMatrix.nonZeros],
    fun b => by simp [Example.stiffAxisState], Example_stiff_symm, Example_stiff_pd, ?_⟩
  have hn1 : lpNormInf (Matrix.of ![![99 / 200, -99 / 20, 0]] : MatrixX3 1) = 99 / 20 := by
    apply le_antisymm
    · apply lpNormInf_le _ _ (by norm_num)
      intro i j
      fin_cases i
      fin_cases j <;> (simp [abs_le]; norm_num)
    · have h := le_lpNormInf (Matrix.of ![![99 / 200, -99 / 20, 0]] : MatrixX3 1) 0 1
      simpa [abs_div] using h
  have hn0 : lpNormInf (Matrix.of ![![1, 1 / 10, 0]] : MatrixX3 1) = 1 := by
    apply le_antisymm
    · apply lpNormInf_le _ _ (by norm_num)
      intro i j
      fin_cases i
      fin_cases j <;> norm_num [abs_le]
    · have h := le_lpNormInf (Matrix.of ![![1, 1 / 10, 0]] : MatrixX3 1) 0 0
      simpa using h
  have hinit := Example_stiff_init
  obtain ⟨s1, hs1, hr1⟩ := cg_body_next Example.options Example.stiffAxisState
    (cg_init Example.stiffAxisState)
    (by rw [hinit, Example_stiff_mulAxes, Example_stiff_inner]; simp; norm_num)
    (by rw [hinit, Example_stiff_inner]; simp; norm_num)
    (by
      rw [hinit]
      simp only
      rw [Example_stiff_r1, hn1]
      norm_num [Example.options])
  rw [hinit] at hr1
  simp only at hr1
  rw [Example_stiff_r1] at hr1
  refine ⟨s1, hs1, ?_, ?_, ?_⟩
  · rw [hinit]; exact hn0
  · rw [hr1]; exact hn1
  · rw [hr1, hn1, hinit]
    simp only
    rw [hn0]
    norm_num

/-! ## Instances on the example states -/

theorem Example_spring_pd (v : Fin 2 → ℚ) (hv : v ≠ 0) :
    0 < Matrix.dotProduct v (Example.zeroStiffnessState.A.mulVec v) := by
  have h : v 0 ≠ 0 ∨ v 1 ≠ 0 := by
    by_contra hc
    push_neg at hc
    apply hv
    funext a
    fin_cases a
    · exact hc.1
    · exact hc.2
  have e : Matrix.dotProduct v (Example.zeroStiffnessState.A.mulVec v) =
      v 0 * v 0 + v 1 * v 1 + (v 0 - v 1) * (v 0 - v 1) := by
    simp [Example.zeroStiffnessState, Example.springState, Matrix.mulVec, Matrix.dotProduct,
      Fin.sum_univ_two]
    ring
  rw [e]
  rcases h with h | h
  · have := mul_self_pos.2 h
    nlinarith [mul_self_nonneg (v 1), mul_self_nonneg (v 0 - v 1)]
  · have := mul_self_pos.2 h
    nlinarith [mul_self_nonneg (v 0), mul_self_nonneg (v 0 - v 1)]

/-- Instance of `constrained_path_agrees_with_fast_path`: the two-vertex state with a stored
constraint row on every axis and penalty stiffness zero. -/
theorem constrained_path_agrees_with_fast_path_witness :
    (∃ i, (Example.zeroStiffnessState.K i).nonZeros ≠ 0) ∧
    (∀ v : Fin 2 → ℚ, v ≠ 0 →
      0 < Matrix.dotProduct v (Example.zeroStiffnessState.A.mulVec v)) ∧
    1 ≤ Example.options.max_cg_iters ∧
    (solve_conjugate_gradients Example.options Example.zeroStiffnessState).x =
      solve_Ax_b Example.zeroStiffnessState Example.zeroStiffnessState.b := by
  have hstored : ∃ i, (Example.zeroStiffnessState.K i).nonZeros ≠ 0 :=
    ⟨0, by simp [Example.zeroStiffnessState, SparseMatrix.nonZeros]⟩
  have hit : 1 ≤ Example.options.max_cg_iters := by decide
  exact ⟨hstored, Example_spring_pd, hit,
    (constrained_path_agrees_with_fast_path Example.options Example.zeroStiffnessState hstored
      (fun i => by simp [Example.zeroStiffnessState])
      (fun i => by simp [Example.zeroStiffnessState])
      Example_spring_exact Example_spring_pd hit).1⟩

/-- Instance of `cg_energy_monotone`: the first iteration on the one-vertex system with a
stiff second axis. -/
theorem cg_energy_monotone_witness :
    (∀ i, (cg_A Example.stiffAxisState i).IsSymm) ∧
    (∀ i (v : Fin 1 → ℚ), v ≠ 0 →
      0 < Matrix.dotProduct v ((cg_A Example.stiffAxisState i).mulVec v)) ∧
    cg_energy Example.stiffAxisState
        (forLoop (0 + 1) (cg_body Example.options Example.stiffAxisState) 0
          (cg_init Example.stiffAxisState)).2.x ≤
      cg_energy Example.stiffAxisState
        (forLoop 0 (cg_body Example.options Example.stiffAxisState) 0
          (cg_init Example.stiffAxisState)).2.x :=
  ⟨Example_stiff_symm, Example_stiff_pd,
    (cg_energy_monotone Example.options Example.stiffAxisState Example_stiff_symm
      Example_stiff_pd 0).1⟩

/-! ## The start of a step and a step without iterations -/

/-- C13: postcondition of `init_solve`. For a timestep `dt ≥ 0`: `x` is unchanged,
`x_start = x`, `v[i] = v_before[i] + gravity`, `M_xbar[i] = m[i]·x[i] + dt·m[i]·v[i]` with the
updated `v`, `Dx = D·x`, `z = Dx` and `u = 0`. -/
theorem init_solve_postcondition (options : Options) (data : Data n nr)
    (hdt : 0 ≤ options.timestep_s) :
    (init_solve options data).x = data.x ∧
    (init_solve options data).x_start = data.x ∧
    (∀ i j, (init_solve options data).v i j = data.v i j + options.grav j) ∧
    (∀ i j, (init_solve options data).M_xbar i j =
      data.m i * data.x i j +
        options.timestep_s * data.m i * (init_solve options data).v i j) ∧
    (init_solve options data).Dx = ⟨nr, data.D * data.x⟩ ∧
    (init_solve options data).z = data.D * data.x ∧
    (init_solve options data).Dx = ⟨nr, (init_solve options data).z⟩ ∧
    (init_solve options data).u = 0 := by
  refine ⟨rfl, rfl, fun _ _ => rfl, ?_, rfl, rfl, rfl, rfl⟩
  intro i j
  simp only [init_solve, max_eq_right hdt]

/-- Instance of `init_solve_postcondition`: gravity `(0, 0, -1)` on the two-vertex state at
rest. -/
theorem init_solve_postcondition_witness :
    0 ≤ Example.options.timestep_s ∧
    (init_solve Example.options Example.springState).v =
      Matrix.of ![![0, 0, -1], ![0, 0, -1]] := by
  refine ⟨by norm_num [Example.options], ?_⟩
  have h := (init_solve_postcondition Example.options Example.springState
    (by norm_num [Example.options])).2.2.1
  ext i j
  rw [h]
  fin_cases i <;> fin_cases j <;> simp [Example.springState, Example.options]

/-- C11: with `max_admm_iters = 0`, `Solver::solve` returns `0` and the position after the
call is the position before it, which is also `x_start`. The state left is the one set up by
`init_solve` with only the velocity rewritten (to zero when `timestep > 0`, where it is
`(x - x_start)/dt`; to the entry velocity plus gravity otherwise); of the position and the
velocity, only the velocity is touched. -/
theorem solve_zero_iters (c : Collaborators) (options : Options) (data : Data n nr)
    (h0 : options.max_admm_iters = 0) :
    (solve c options data).1 = 0 ∧
    (solve c options data).2.x = data.x ∧
    (solve c options data).2.x_start = data.x ∧
    (solve c options data).2 =
      { init_solve options data with
        v := if 0 < options.timestep_s then 0
          else fun i j => data.v i j + options.grav j } := by
  have hloop : forLoop options.max_admm_iters
      (fun d => LoopStep.next (solve_body c options d)) 0 (init_solve options data) =
      (0, init_solve options data) := by
    rw [forLoop_of_not_lt _ _ _ _ (by omega)]
  have hsolve : solve c options data =
      (0, { init_solve options data with
        v := if 0 < options.timestep_s then 0
          else fun i j => data.v i j + options.grav j }) := by
    unfold solve
    simp only [hloop, gt_iff_lt]
    by_cases hdt : 0 < options.timestep_s
    · simp only [if_pos hdt]
      have hz : (1 / options.timestep_s) •
          ((init_solve options data).x - (init_solve options data).x_start) = 0 := by
        show (1 / options.timestep_s) • (data.x - data.x) = 0
        rw [sub_self, smul_zero]
      rw [hz]
    · simp only [if_neg hdt]
      rfl
  rw [hsolve]
  exact ⟨rfl, rfl, rfl, rfl⟩

/-- Instance of `solve_zero_iters`: the two-vertex state. -/
theorem solve_zero_iters_witness :
    Example.zeroIters.max_admm_iters = 0 ∧
    (solve Example.collab Example.zeroIters Example.springState).1 = 0 ∧
    (solve Example.collab Example.zeroIters Example.springState).2.x =
      Matrix.of ![![0, 0, 1], ![0, 0, 2]] :=
  ⟨rfl, (solve_zero_iters Example.collab Example.zeroIters Example.springState rfl).1,
    (solve_zero_iters Example.collab Example.zeroIters Example.springState rfl).2.1⟩

/-! ## Free fall -/

theorem solve_local_step_no_rows (c : Collaborators) (d : Data n 0) :
    solve_local_step c d = d :=
  solve_local_step_fold_id c d (fun _ _ _ => Subsingleton.elim _ _) _

/-- One pass of the ADMM loop body on a state without elements, with `A = 1` and no active
constraint at the current position: the new position is `M_xbar`. -/
theorem solve_body_free (c : Collaborators) (options : Options) (d : Data n 0)
    (hA : d.A = 1) (hex : ∀ b, d.A.mulVec (d.ldltA b) = b)
    (hjac : (c.jacobian d.x).l_coeffs = []) :
    solve_body c options d =
      { d with l := d.l.map fun _ => 0, K := fun i => (d.K i).setZero, b := d.M_xbar,
               x := d.M_xbar } := by
  have hcons : update_constraints c d =
      { d with l := d.l.map fun _ => 0, K := fun i => (d.K i).setZero } := by
    unfold update_constraints
    simp [hjac]
  have hb : d.M_xbar + d.DtW2 * (d.z - d.u) = d.M_xbar := by
    ext i j
    simp [Matrix.mul_apply]
  have hid : ∀ y, d.ldltA y = y := by
    intro y
    have h := hex y
    rwa [hA, Matrix.one_mulVec] at h
  unfold solve_body
  simp only [solve_local_step_no_rows, hcons, hb]
  unfold solve_conjugate_gradients solve_conjugate_gradients_iters
  simp only [SparseMatrix_nonZeros_setZero, max_self, if_true]
  have hx : solve_Ax_b
      { d with l := d.l.map fun _ => 0, K := fun i => (d.K i).setZero, b := d.M_xbar }
      d.M_xbar = d.M_xbar := by
    funext r i
    show d.ldltA (fun k => d.M_xbar k i) r = d.M_xbar r i
    rw [hid]
  rw [hx]

theorem solve_body_iterate_free (c : Collaborators) (options : Options) (d : Data n 0)
    (hA : d.A = 1) (hex : ∀ b, d.A.mulVec (d.ldltA b) = b)
    (hjac0 : (c.jacobian d.x).l_coeffs = [])
    (hjac1 : (c.jacobian d.M_xbar).l_coeffs = []) (k : ℕ) :
    ∃ L KK, (solve_body c options)^[k + 1] d =
      { d with l := L, K := KK, b := d.M_xbar, x := d.M_xbar } := by
  induction k with
  | zero => exact ⟨_, _, solve_body_free c options d hA hex hjac0⟩
  | succ k ih =>
    obtain ⟨L, KK, h⟩ := ih
    rw [Function.iterate_succ_apply', h]
    exact ⟨_, _, solve_body_free c options
      { d with l := L, K := KK, b := d.M_xbar, x := d.M_xbar } hA hex hjac1⟩

/-- C12: free fall. For a single vertex of mass `1` without elements (`D` has no rows),
`A = 1` with an exact factorization, no constraint returned at the entry position and at the
predicted position, a timestep `dt > 0` and `max_admm_iters ≥ 1`, one call of
`Solver::solve` yields `v_new = v_old + g` and `x_new = x_start + dt·v_new`, so that
`v_new = (x_new - x_start)/dt`. -/
theorem solve_free_fall (c : Collaborators) (options : Options) (data : Data 1 0)
    (hm : data.m = fun _ => 1) (hA : data.A = 1)
    (hex : ∀ b, data.A.mulVec (data.ldltA b) = b)
    (hdt : 0 < options.timestep_s) (hit : 1 ≤ options.max_admm_iters)
    (hjac0 : (c.jacobian data.x).l_coeffs = [])
    (hjac1 : (c.jacobian (fun i j =>
      data.x i j + options.timestep_s * (data.v i j + options.grav j))).l_coeffs = []) :
    (∀ i j, (solve c options data).2.v i j = data.v i j + options.grav j) ∧
    (∀ i j, (solve c options data).2.x i j =
      data.x i j + options.timestep_s * (solve c options data).2.v i j) ∧
    (∀ i j, (solve c options data).2.v i j =
      ((solve c options data).2.x i j - data.x i j) / options.timestep_s) := by
  have hM : (init_solve options data).M_xbar = fun i j =>
      data.x i j + options.timestep_s * (data.v i j + options.grav j) := by
    funext i j
    simp [init_solve, hm, max_eq_right (le_of_lt hdt)]
  obtain ⟨k, hk⟩ : ∃ k : ℕ, options.max_admm_iters.toNat = k + 1 :=
    ⟨options.max_admm_iters.toNat - 1, by omega⟩
  obtain ⟨L, KK, hit1⟩ := solve_body_iterate_free c options (init_solve options data) hA hex
    hjac0 (by rw [hM]; exact hjac1) k
  have hsolve : solve c options data =
      (options.max_admm_iters,
        { init_solve options data with
          l := L, K := KK, b := (init_solve options data).M_xbar,
          x := (init_solve options data).M_xbar,
          v := (1 / options.timestep_s) • ((init_solve options data).M_xbar - data.x) }) := by
    unfold solve
    simp only [solve_loop_eq c options _ (by omega : 0 ≤ options.max_admm_iters), hk, hit1,
      gt_iff_lt, if_pos hdt]
    rfl
  have hne : options.timestep_s ≠ 0 := ne_of_gt hdt
  have hv : ∀ i j, (solve c options data).2.v i j = data.v i j + options.grav j := by
    intro i j
    rw [hsolve]
    simp only [hM, Matrix.smul_apply, Matrix.sub_apply, smul_eq_mul]
    field_simp
  have hx : ∀ i j, (solve c options data).2.x i j =
      data.x i j + options.timestep_s * (data.v i j + options.grav j) := by
    intro i j
    rw [hsolve]
    simp only [hM]
  refine ⟨hv, fun i j => by rw [hx, hv], fun i j => ?_⟩
  rw [hx, hv]
  field_simp

/-! ## Conjugate gradients: breakdown and the residual -/

theorem mat_inner_zero_right {r : ℕ} (P : MatrixX3 r) : mat_inner P 0 = 0 := by
  simp [mat_inner]

theorem cg_body_breakdown (options : Options) (data : Data n nr) (s : CGState n)
    (h : mat_inner s.p (mulAxes (cg_A data) s.p) = 0 ∨ mat_inner s.z s.r = 0) :
    cg_body options data s = LoopStep.brk s := by
  unfold cg_body
  by_cases h1 : mat_inner s.p (mulAxes (cg_A data) s.p) = 0
  · simp only [h1, if_true]
  · rcases h with h | h
    · exact absurd h h1
    · simp only [h1, h, if_true, if_false]

theorem stored_not_fast (data : Data n nr) (hstored : ∃ i, (data.K i).nonZeros ≠ 0) :
    ¬ max (max (data.K 0).nonZeros (data.K 1).nonZeros) (data.K 2).nonZeros = 0 := by
  obtain ⟨i, hi⟩ := hstored
  intro h0
  have h1 : (data.K 0).nonZeros = 0 ∧ (data.K 1).nonZeros = 0 ∧ (data.K 2).nonZeros = 0 := by
    omega
  fin_cases i
  · exact hi h1.1
  · exact hi h1.2.1
  · exact hi h1.2.2

/-- C17: CG breakdown is absorbed. If at some iteration `pᵗAp = 0` or `zᵗr = 0` (the inner
products taken over the three axes), the body leaves through `break` with the loop state,
and so `x`, as it was, and the loop ends at that iteration; the function is total, nothing
is raised. In particular, on the constrained path with an entry residual
`b[i] − A[i]·x = 0` on the three axes, the state is returned unchanged for every
`max_cg_iters` and `min_res`. -/
theorem cg_breakdown_absorbed (options : Options) (data : Data n nr) :
    (∀ s : CGState n,
      mat_inner s.p (mulAxes (cg_A data) s.p) = 0 ∨ mat_inner s.z s.r = 0 →
      cg_body options data s = LoopStep.brk s ∧
      ∀ max iter : ℤ, iter < max →
        forLoop max (cg_body options data) iter s = (iter, s)) ∧
    ((∃ i, (data.K i).nonZeros ≠ 0) →
      cg_b data - mulAxes (cg_A data) data.x = 0 →
      solve_conjugate_gradients options data = data) := by
  constructor
  · intro s h
    have hb := cg_body_breakdown options data s h
    refine ⟨hb, fun max iter hlt => ?_⟩
    rw [forLoop_of_lt _ _ _ _ hlt, hb]
  · intro hstored hres
    have hinit : (cg_init data).x = data.x := rfl
    have hr : (cg_init data).r = 0 := hres
    have hx : (forLoop options.max_cg_iters (cg_body options data) 0 (cg_init data)).2.x =
        data.x := by
      by_cases hlt : 0 < options.max_cg_iters
      · rw [forLoop_of_lt _ _ _ _ hlt,
          cg_body_breakdown options data (cg_init data)
            (Or.inr (by rw [hr, mat_inner_zero_right]))]
        exact hinit
      · rw [forLoop_of_not_lt _ _ _ _ hlt]
        exact hinit
    unfold solve_conjugate_gradients solve_conjugate_gradients_iters
    rw [if_neg (stored_not_fast data hstored)]
    simp only [hx]

/-- The residual invariant, without any assumption on the matrices. -/
theorem cg_body_residual (options : Options) (data : Data n nr) (s : CGState n)
    (hr : s.r = cg_b data - mulAxes (cg_A data) s.x) (s1 : CGState n)
    (h : cg_body options data s = LoopStep.next s1 ∨ cg_body options data s = LoopStep.brk s1) :
    s1.r = cg_b data - mulAxes (cg_A data) s1.x := by
  have hr1 : s.r - (mat_inner s.z s.r / mat_inner s.p (mulAxes (cg_A data) s.p)) •
        mulAxes (cg_A data) s.p =
      cg_b data - mulAxes (cg_A data)
        (s.x + (mat_inner s.z s.r / mat_inner s.p (mulAxes (cg_A data) s.p)) • s.p) := by
    rw [mulAxes_add, mulAxes_smul, hr]
    abel
  unfold cg_body at h
  simp only at h
  split_ifs at h with h1 h2 h3
  · rcases h with h | h
    · cases h
    · cases h; exact hr
  · rcases h with h | h
    · cases h
    · cases h; exact hr
  · rcases h with h | h
    · cases h
    · cases h; exact hr1
  · rcases h with h | h
    · cases h; exact hr1
    · cases h

theorem forLoop_cg_residual (options : Options) (data : Data n nr) (max : ℤ) (d : ℕ) :
    ∀ (iter : ℤ) (s : CGState n), (max - iter).toNat = d →
      s.r = cg_b data - mulAxes (cg_A data) s.x →
      (forLoop max (cg_body options data) iter s).2.r =
        cg_b data - mulAxes (cg_A data) (forLoop max (cg_body options data) iter s).2.x := by
  induction d with
  | zero =>
    intro iter s hd hr
    rw [forLoop_of_not_lt _ _ _ _ (by omega)]
    exact hr
  | succ d ih =>
    intro iter s hd hr
    rw [forLoop_of_lt _ _ _ _ (by omega)]
    cases hb : cg_body options data s with
    | next s1 =>
      simp only
      exact ih (iter + 1) s1 (by omega) (cg_body_residual options data s hr s1 (Or.inl hb))
    | brk s1 =>
      simp only
      exact cg_body_residual options data s hr s1 (Or.inr hb)

/-- C19: the residual variable of the CG loop is the true residual. Before the loop
`r = b[i] − A[i]·x` on each axis (`A[i] = A + spring_k·Kᵗ·K`, `b[i] = b + spring_k·Kᵗ·l`);
every pass of the body keeps this, whether it goes on or breaks; hence it holds on exit for
every `max_cg_iters`, where a residual variable below `min_res` bounds the true residual of
the returned `x`; and when the body leaves through the residual test, the `x` it returns has
`|b[i] − A[i]·x| < min_res` in every coefficient. -/
theorem cg_residual_is_true_residual (options : Options) (data : Data n nr) :
    (cg_init data).r = cg_b data - mulAxes (cg_A data) (cg_init data).x ∧
    (∀ s s1 : CGState n, s.r = cg_b data - mulAxes (cg_A data) s.x →
      (cg_body options data s = LoopStep.next s1 ∨ cg_body options data s = LoopStep.brk s1) →
      s1.r = cg_b data - mulAxes (cg_A data) s1.x) ∧
    (∀ max : ℤ,
      (forLoop max (cg_body options data) 0 (cg_init data)).2.r =
        cg_b data - mulAxes (cg_A data)
          (forLoop max (cg_body options data) 0 (cg_init data)).2.x) ∧
    (∀ max : ℤ,
      lpNormInf (forLoop max (cg_body options data) 0 (cg_init data)).2.r < options.min_res →
      ∀ i j, |(cg_b data - mulAxes (cg_A data)
        (forLoop max (cg_body options data) 0 (cg_init data)).2.x) i j| < options.min_res) ∧
    (∀ s : CGState n, s.r = cg_b data - mulAxes (cg_A data) s.x →
      mat_inner s.p (mulAxes (cg_A data) s.p) ≠ 0 → mat_inner s.z s.r ≠ 0 →
      lpNormInf (s.r - (mat_inner s.z s.r / mat_inner s.p (mulAxes (cg_A data) s.p)) •
        mulAxes (cg_A data) s.p) < options.min_res →
      ∃ s1, cg_body options data s = LoopStep.brk s1 ∧
        s1.x = s.x + (mat_inner s.z s.r / mat_inner s.p (mulAxes (cg_A data) s.p)) • s.p ∧
        lpNormInf (cg_b data - mulAxes (cg_A data) s1.x) < options.min_res ∧
        ∀ i j, |(cg_b data - mulAxes (cg_A data) s1.x) i j| < options.min_res) := by
  refine ⟨rfl, fun s s1 hr h => cg_body_residual options data s hr s1 h,
    fun max => forLoop_cg_residual options data max _ 0 (cg_init data) rfl rfl, ?_, ?_⟩
  · intro max hlt i j
    rw [← forLoop_cg_residual options data max _ 0 (cg_init data) rfl rfl]
    exact lt_of_le_of_lt (le_lpNormInf _ i j) hlt
  intro s hr h1 h2 h3
  have hb : cg_body options data s = LoopStep.brk
      { s with
        x := s.x + (mat_inner s.z s.r / mat_inner s.p (mulAxes (cg_A data) s.p)) • s.p
        r := s.r - (mat_inner s.z s.r / mat_inner s.p (mulAxes (cg_A data) s.p)) •
          mulAxes (cg_A data) s.p } := by
    unfold cg_body
    simp only [h1, h2, h3, if_true, if_false]
  have hres := cg_body_residual options data s hr _ (Or.inr hb)
  simp only at hres
  refine ⟨_, hb, rfl, ?_, ?_⟩
  · simp only
    rw [← hres]
    exact h3
  · intro i j
    simp only
    rw [← hres]
    exact lt_of_le_of_lt (le_lpNormInf _ i j) h3

theorem Example_unit_jacobian (x : MatrixX3 1) (h : 0 ≤ x 0 2) :
    (Example.collab.jacobian x).l_coeffs = [] := by
  simp [Example.collab, Example.jacobian, List.finRange, not_lt.2 h]

/-- Instance of `solve_free_fall`: the vertex at height `5` with velocity `(1, 0, 0)`,
timestep one half and gravity `(0, 0, -1)` stays above the floor. -/
theorem solve_free_fall_witness :
    Example.unitVertex.m = (fun _ => 1) ∧ Example.unitVertex.A = 1 ∧
    0 < Example.options.timestep_s ∧ 1 ≤ Example.options.max_admm_iters ∧
    (solve Example.collab Example.options Example.unitVertex).2.v 0 2 = -1 := by
  have h := (solve_free_fall Example.collab Example.options Example.unitVertex rfl rfl
    (fun b => by simp [Example.unitVertex]) (by norm_num [Example.options]) (by decide)
    (Example_unit_jacobian _ (by simp [Example.unitVertex]))
    (Example_unit_jacobian _ (by norm_num [Example.unitVertex, Example.options]))).1 0 2
  refine ⟨rfl, rfl, by norm_num [Example.options], by decide, ?_⟩
  rw [h]
  simp [Example.unitVertex, Example.options]

/-- Instance of `cg_breakdown_absorbed`: the stiff one-vertex system started at its solution
is returned as it is. -/
theorem cg_breakdown_absorbed_witness :
    (∃ i, (Example.solvedStiffState.K i).nonZeros ≠ 0) ∧
    cg_b Example.solvedStiffState -
      mulAxes (cg_A Example.solvedStiffState) Example.solvedStiffState.x = 0 ∧
    solve_conjugate_gradients Example.options Example.solvedStiffState =
      Example.solvedStiffState := by
  have hstored : ∃ i, (Example.solvedStiffState.K i).nonZeros ≠ 0 :=
    ⟨1, by simp [Example.solvedStiffState, Example.stiffAxisState, SparseMatrix.nonZeros]⟩
  have hres : cg_b Example.solvedStiffState -
      mulAxes (cg_A Example.solvedStiffState) Example.solvedStiffState.x = 0 := by
    have hA : cg_A Example.solvedStiffState = cg_A Example.stiffAxisState := rfl
    have hb : cg_b Example.solvedStiffState = cg_b Example.stiffAxisState := rfl
    rw [hA, hb, Example_stiff_cg_b, Example_stiff_mulAxes]
    ext a i
    fin_cases a
    fin_cases i <;> norm_num [Example.solvedStiffState]
  exact ⟨hstored, hres,
    (cg_breakdown_absorbed Example.options Example.solvedStiffState).2 hstored hres⟩

/-! ## Per-element metadata -/

theorem ChainFrom_append (l : List (ℤ × ℤ)) :
    ∀ (s : ℤ) (p : ℤ × ℤ), ChainFrom s l → p.1 = s + (l.map Prod.snd).sum → 0 < p.2 →
      ChainFrom s (l ++ [p]) := by
  induction l with
  | nil =>
    intro s p _ hp hd
    simp only [List.map_nil, List.sum_nil, add_zero] at hp
    exact ⟨hp, hd, trivial⟩
  | cons q l ih =>
    intro s p hc hp hd
    obtain ⟨h1, h2, h3⟩ := hc
    refine ⟨h1, h2, ih (s + q.2) p h3 ?_ hd⟩
    rw [hp, List.map_cons, List.sum_cons]
    ring

theorem ChainFrom_pos (l : List (ℤ × ℤ)) :
    ∀ s : ℤ, ChainFrom s l → ∀ p ∈ l, 0 < p.2 := by
  induction l with
  | nil => intro s _ p hp; cases hp
  | cons q l ih =>
    intro s hc p hp
    obtain ⟨-, h2, h3⟩ := hc
    rcases List.mem_cons.1 hp with h | h
    · rw [h]; exact h2
    · exact ih _ h3 p h

theorem ChainFrom_lower (l : List (ℤ × ℤ)) :
    ∀ s : ℤ, ChainFrom s l → ∀ j, j < l.length → s ≤ (l.getD j (0, 0)).1 := by
  induction l with
  | nil => intro s _ j hj; cases hj
  | cons q l ih =>
    intro s hc j hj
    obtain ⟨h1, h2, h3⟩ := hc
    cases j with
    | zero => simp [h1]
    | succ j =>
      rw [List.getD_cons_succ]
      have := ih _ h3 j (by simpa using hj)
      omega

theorem ChainFrom_succ (l : List (ℤ × ℤ)) :
    ∀ s : ℤ, ChainFrom s l →
      (0 < l.length → (l.getD 0 (0, 0)).1 = s) ∧
      ∀ i, i + 1 < l.length →
        (l.getD (i + 1) (0, 0)).1 = (l.getD i (0, 0)).1 + (l.getD i (0, 0)).2 := by
  induction l with
  | nil => intro s _; exact ⟨fun h => absurd h (by simp), fun i hi => absurd hi (by simp)⟩
  | cons q l ih =>
    intro s hc
    obtain ⟨h1, h2, h3⟩ := hc
    refine ⟨fun _ => by simp [h1], fun i hi => ?_⟩
    have hl : 0 < l.length := by
      simp only [List.length_cons] at hi
      omega
    cases i with
    | zero =>
      rw [List.getD_cons_succ, List.getD_cons_zero, (ih _ h3).1 hl, h1]
    | succ i =>
      rw [List.getD_cons_succ, List.getD_cons_succ]
      exact (ih _ h3).2 i (by simpa using hi)

theorem ChainFrom_disjoint (l : List (ℤ × ℤ)) :
    ∀ s : ℤ, ChainFrom s l → ∀ i j, i < j → j < l.length →
      (l.getD i (0, 0)).1 + (l.getD i (0, 0)).2 ≤ (l.getD j (0, 0)).1 := by
  induction l with
  | nil => intro s _ i j _ hj; cases hj
  | cons q l ih =>
    intro s hc i j hij hj
    obtain ⟨h1, h2, h3⟩ := hc
    cases j with
    | zero => exact absurd hij (by omega)
    | succ j =>
      have hj1 : j < l.length := by simpa using hj
      cases i with
      | zero =>
        rw [List.getD_cons_zero, List.getD_cons_succ, h1]
        exact ChainFrom_lower l _ h3 j hj1
      | succ i =>
        rw [List.getD_cons_succ, List.getD_cons_succ]
        exact ih _ h3 i j (by omega) hj1

theorem ChainFrom_cover (l : List (ℤ × ℤ)) :
    ∀ s : ℤ, ChainFrom s l → ∀ r : ℤ, s ≤ r → r < s + (l.map Prod.snd).sum →
      ∃ i, i < l.length ∧ (l.getD i (0, 0)).1 ≤ r ∧
        r < (l.getD i (0, 0)).1 + (l.getD i (0, 0)).2 := by
  induction l with
  | nil =>
    intro s _ r h1 h2
    simp only [List.map_nil, List.sum_nil, add_zero] at h2
    omega
  | cons q l ih =>
    intro s hc r hr1 hr2
    obtain ⟨h1, h2, h3⟩ := hc
    by_cases hq : r < s + q.2
    · exact ⟨0, by simp, by simp [h1, hr1], by simpa [h1] using hq⟩
    · rw [List.map_cons, List.sum_cons] at hr2
      obtain ⟨i, hi, hlo, hhi⟩ := ih _ h3 r (by omega) (by omega)
      exact ⟨i + 1, by simpa using hi, by simpa using hlo, by simpa using hhi⟩

/-- Invariant of the loop of `append_energies`: the three lists grow together and the index
pairs follow one another up to the running index. -/
theorem append_energies_fold_inv (c : Collaborators) (x : MatrixX3 n)
    (tets : List (Fin 4 → Fin n)) :
    ∀ acc : EnergyAcc,
      acc.indices.length = acc.rest_volumes.length →
      acc.indices.length = acc.weights.length →
      ChainFrom 0 acc.indices →
      acc.energy_index = (acc.indices.map Prod.snd).sum →
      (tets.foldl (append_energies_step c x) acc).indices.length =
        (tets.foldl (append_energies_step c x) acc).rest_volumes.length ∧
      (tets.foldl (append_energies_step c x) acc).indices.length =
        (tets.foldl (append_energies_step c x) acc).weights.length ∧
      ChainFrom 0 (tets.foldl (append_energies_step c x) acc).indices ∧
      (tets.foldl (append_energies_step c x) acc).energy_index =
        ((tets.foldl (append_energies_step c x) acc).indices.map Prod.snd).sum ∧
      (tets.foldl (append_energies_step c x) acc).indices.length =
        acc.indices.length + (kept_tets c x acc.energy_index tets).length := by
  induction tets with
  | nil => intro acc h1 h2 h3 h4; exact ⟨h1, h2, h3, h4, rfl⟩
  | cons ele rest ih =>
    intro acc h1 h2 h3 h4
    rw [List.foldl_cons, kept_tets]
    by_cases hd : (c.init_tet acc.energy_index ele x).energy_dim ≤ 0
    · have hstep : append_energies_step c x acc ele =
          { acc with D_triplets :=
              acc.D_triplets ++ (c.init_tet acc.energy_index ele x).appended } := by
        unfold append_energies_step
        simp only [if_pos hd]
      rw [hstep, if_pos hd]
      exact ih _ h1 h2 h3 h4
    · have hstep : append_energies_step c x acc ele =
          { indices := acc.indices ++
              [(acc.energy_index, (c.init_tet acc.energy_index ele x).energy_dim)]
            rest_volumes := acc.rest_volumes ++ [(c.init_tet acc.energy_index ele x).rest_volume]
            weights := acc.weights ++ [(c.init_tet acc.energy_index ele x).weight]
            D_triplets := acc.D_triplets ++ (c.init_tet acc.energy_index ele x).appended
            energy_index :=
              acc.energy_index + (c.init_tet acc.energy_index ele x).energy_dim } := by
        unfold append_energies_step
        simp only [if_neg hd]
      rw [hstep, if_neg hd]
      obtain ⟨g1, g2, g3, g4, g5⟩ := ih
        { indices := acc.indices ++
            [(acc.energy_index, (c.init_tet acc.energy_index ele x).energy_dim)]
          rest_volumes := acc.rest_volumes ++ [(c.init_tet acc.energy_index ele x).rest_volume]
          weights := acc.weights ++ [(c.init_tet acc.energy_index ele x).weight]
          D_triplets := acc.D_triplets ++ (c.init_tet acc.energy_index ele x).appended
          energy_index :=
            acc.energy_index + (c.init_tet acc.energy_index ele x).energy_dim }
        (by simp [h1]) (by simp [h2])
        (ChainFrom_append _ 0 _ h3 (by simp [h4]) (by simpa using hd))
        (by simp [h4])
      refine ⟨g1, g2, g3, g4, ?_⟩
      rw [g5]
      simp only [List.length_append, List.length_cons, List.length_nil]
      omega

/-- C18: per-element slices are disjoint. After `append_energies` on empty metadata lists,
`indices`, `rest_volumes` and `weights` have the same length, the number of elements with
positive reported dimension; every recorded dimension is positive; the first offset is `0`
and each later offset is the previous offset plus the previous dimension; so the row ranges
`[offset, offset + dimension)` of distinct elements are pairwise disjoint and every row of
`[0, sum of dimensions)` lies in one of them. -/
theorem append_energies_slices (c : Collaborators) (x : MatrixX3 n)
    (tets : List (Fin 4 → Fin n)) (D_triplets : List Triplet) :
    (append_energies c x tets [] [] [] D_triplets).indices.length =
      (kept_tets c x 0 tets).length ∧
    (append_energies c x tets [] [] [] D_triplets).rest_volumes.length =
      (kept_tets c x 0 tets).length ∧
    (append_energies c x tets [] [] [] D_triplets).weights.length =
      (kept_tets c x 0 tets).length ∧
    (∀ p ∈ (append_energies c x tets [] [] [] D_triplets).indices, 0 < p.2) ∧
    (0 < (append_energies c x tets [] [] [] D_triplets).indices.length →
      ((append_energies c x tets [] [] [] D_triplets).indices.getD 0 (0, 0)).1 = 0) ∧
    (∀ i, i + 1 < (append_energies c x tets [] [] [] D_triplets).indices.length →
      ((append_energies c x tets [] [] [] D_triplets).indices.getD (i + 1) (0, 0)).1 =
        ((append_energies c x tets [] [] [] D_triplets).indices.getD i (0, 0)).1 +
          ((append_energies c x tets [] [] [] D_triplets).indices.getD i (0, 0)).2) ∧
    (∀ i j, i < j → j < (append_energies c x tets [] [] [] D_triplets).indices.length →
      ((append_energies c x tets [] [] [] D_triplets).indices.getD i (0, 0)).1 +
          ((append_energies c x tets [] [] [] D_triplets).indices.getD i (0, 0)).2 ≤
        ((append_energies c x tets [] [] [] D_triplets).indices.getD j (0, 0)).1) ∧
    (∀ r : ℤ, 0 ≤ r →
      r < ((append_energies c x tets [] [] [] D_triplets).indices.map Prod.snd).sum →
      ∃ i, i < (append_energies c x tets [] [] [] D_triplets).indices.length ∧
        ((append_energies c x tets [] [] [] D_triplets).indices.getD i (0, 0)).1 ≤ r ∧
        r < ((append_energies c x tets [] [] [] D_triplets).indices.getD i (0, 0)).1 +
          ((append_energies c x tets [] [] [] D_triplets).indices.getD i (0, 0)).2) := by
  have hfold := append_energies_fold_inv c x tets
    { indices := [], rest_volumes := [], weights := [], D_triplets := D_triplets,
      energy_index := 0 } rfl rfl trivial rfl
  have hacc : append_energies c x tets [] [] [] D_triplets =
      tets.foldl (append_energies_step c x)
        { indices := [], rest_volumes := [], weights := [], D_triplets := D_triplets,
          energy_index := 0 } := by
    unfold append_energies
    simp only
    split
    · rename_i h
      rw [List.length_eq_zero.1 h]
      rfl
    · rfl
  rw [hacc]
  obtain ⟨g1, g2, g3, g4, g5⟩ := hfold
  simp only [List.length_nil, zero_add] at g5
  refine ⟨g5, by rw [← g1, g5], by rw [← g2, g5], ChainFrom_pos _ 0 g3,
    (ChainFrom_succ _ 0 g3).1, (ChainFrom_succ _ 0 g3).2, ChainFrom_disjoint _ 0 g3, ?_⟩
  intro r hr0 hr1
  exact ChainFrom_cover _ 0 g3 r hr0 (by simpa using hr1)

/-- The loop of `append_energies` started on non-empty lists appends to them what it produces
from empty lists. -/
theorem append_energies_fold_onto (c : Collaborators) (x : MatrixX3 n)
    (tets : List (Fin 4 → Fin n)) (I : List (ℤ × ℤ)) (R W : List ℚ) (Tr : List Triplet) :
    ∀ base : EnergyAcc,
      tets.foldl (append_energies_step c x)
        { indices := I ++ base.indices, rest_volumes := R ++ base.rest_volumes,
          weights := W ++ base.weights, D_triplets := Tr ++ base.D_triplets,
          energy_index := base.energy_index } =
      { indices := I ++ (tets.foldl (append_energies_step c x) base).indices
        rest_volumes := R ++ (tets.foldl (append_energies_step c x) base).rest_volumes
        weights := W ++ (tets.foldl (append_energies_step c x) base).weights
        D_triplets := Tr ++ (tets.foldl (append_energies_step c x) base).D_triplets
        energy_index := (tets.foldl (append_energies_step c x) base).energy_index } := by
  induction tets with
  | nil => intro base; rfl
  | cons ele rest ih =>
    intro base
    rw [List.foldl_cons, List.foldl_cons]
    have hstep : append_energies_step c x
        { indices := I ++ base.indices, rest_volumes := R ++ base.rest_volumes,
          weights := W ++ base.weights, D_triplets := Tr ++ base.D_triplets,
          energy_index := base.energy_index } ele =
        { indices := I ++ (append_energies_step c x base ele).indices
          rest_volumes := R ++ (append_energies_step c x base ele).rest_volumes
          weights := W ++ (append_energies_step c x base ele).weights
          D_triplets := Tr ++ (append_energies_step c x base ele).D_triplets
          energy_index := (append_energies_step c x base ele).energy_index } := by
      unfold append_energies_step
      simp only
      split <;> simp [List.append_assoc]
    rw [hstep]
    exact ih (append_energies_step c x base ele)

theorem append_energies_onto (c : Collaborators) (x : MatrixX3 n)
    (tets : List (Fin 4 → Fin n)) (I : List (ℤ × ℤ)) (R W : List ℚ) :
    append_energies c x tets I R W [] =
      { indices := I ++ (append_energies c x tets [] [] [] []).indices
        rest_volumes := R ++ (append_energies c x tets [] [] [] []).rest_volumes
        weights := W ++ (append_energies c x tets [] [] [] []).weights
        D_triplets := (append_energies c x tets [] [] [] []).D_triplets
        energy_index := (append_energies c x tets [] [] [] []).energy_index } := by
  have h := append_energies_fold_onto c x tets I R W []
    { indices := [], rest_volumes := [], weights := [], D_triplets := [], energy_index := 0 }
  simp only [List.append_nil, List.nil_append] at h
  unfold append_energies
  simp only
  split
  · simp
  · rw [h]

/-! ## The weight diagonal -/

theorem W2_diag_eq_fold (I : List (ℤ × ℤ)) :
    ∀ (W : List ℚ) (w : ℤ → ℚ), I.length = W.length →
      (List.range I.length).foldl
        (fun w i =>
          let idx := I.getD i (0, 0)
          fun r => if idx.1 ≤ r ∧ r < idx.1 + idx.2 then W.getD i 0 * W.getD i 0 else w r)
        w = W2_fold w (I.zip W) := by
  induction I with
  | nil => intro W w _; rfl
  | cons p I ih =>
    intro W w hlen
    cases W with
    | nil => simp at hlen
    | cons q W =>
      have hlen1 : I.length = W.length := by simpa using hlen
      rw [List.length_cons, List.range_succ_eq_map, List.foldl_cons, List.foldl_map]
      simp only [List.getD_cons_zero, List.getD_cons_succ, List.zip_cons_cons]
      rw [ih W _ hlen1]
      rfl

theorem W2_diag_eq_W2_fold (I : List (ℤ × ℤ)) (W : List ℚ) (h : I.length = W.length) :
    W2_diag I W = W2_fold (fun _ => 0) (I.zip W) :=
  W2_diag_eq_fold I W _ h

theorem W2_fold_append (w : ℤ → ℚ) (l1 l2 : List ((ℤ × ℤ) × ℚ)) :
    W2_fold w (l1 ++ l2) = W2_fold (W2_fold w l1) l2 := by
  unfold W2_fold
  rw [List.foldl_append]

theorem W2_fold_not_covered (l : List ((ℤ × ℤ) × ℚ)) :
    ∀ (w : ℤ → ℚ) (r : ℤ), (∀ e ∈ l, ¬ (e.1.1 ≤ r ∧ r < e.1.1 + e.1.2)) →
      W2_fold w l r = w r := by
  induction l with
  | nil => intro w r _; rfl
  | cons e l ih =>
    intro w r h
    unfold W2_fold
    rw [List.foldl_cons]
    have h1 := ih (fun r => if e.1.1 ≤ r ∧ r < e.1.1 + e.1.2 then e.2 * e.2 else w r) r
      (fun e1 he1 => h e1 (List.mem_cons_of_mem _ he1))
    unfold W2_fold at h1
    rw [h1]
    simp only [if_neg (h e (List.mem_cons_self _ _))]

theorem W2_fold_congr (l : List ((ℤ × ℤ) × ℚ)) :
    ∀ (w1 w2 : ℤ → ℚ),
      (∀ r, (∀ e ∈ l, ¬ (e.1.1 ≤ r ∧ r < e.1.1 + e.1.2)) → w1 r = w2 r) →
      W2_fold w1 l = W2_fold w2 l := by
  induction l with
  | nil =>
    intro w1 w2 h
    funext r
    exact h r (fun e he => absurd he (List.not_mem_nil e))
  | cons e l ih =>
    intro w1 w2 h
    unfold W2_fold
    rw [List.foldl_cons, List.foldl_cons]
    apply ih
    intro r hr
    by_cases he : e.1.1 ≤ r ∧ r < e.1.1 + e.1.2
    · simp only [if_pos he]
    · simp only [if_neg he]
      apply h
      intro e1 he1
      rcases List.mem_cons.1 he1 with h1 | h1
      · rw [h1]; exact he
      · exact hr e1 h1

/-- Running the weight loop a second time over the same entries changes nothing. -/
theorem W2_fold_twice (w : ℤ → ℚ) (l : List ((ℤ × ℤ) × ℚ)) :
    W2_fold (W2_fold w l) l = W2_fold w l :=
  W2_fold_congr l _ _ (fun r hr => W2_fold_not_covered l w r hr)

theorem W2_fold_nonneg (l : List ((ℤ × ℤ) × ℚ)) :
    ∀ w : ℤ → ℚ, (∀ r, 0 ≤ w r) → ∀ r, 0 ≤ W2_fold w l r := by
  induction l with
  | nil => intro w h r; exact h r
  | cons e l ih =>
    intro w h r
    unfold W2_fold
    rw [List.foldl_cons]
    apply ih
    intro r1
    by_cases he : e.1.1 ≤ r1 ∧ r1 < e.1.1 + e.1.2
    · simp only [if_pos he]; exact mul_self_nonneg _
    · simp only [if_neg he]; exact h r1

theorem W2_diag_twice (I J : List (ℤ × ℤ)) (W X : List ℚ) (h1 : I.length = W.length)
    (h2 : J.length = X.length) :
    W2_diag ((I ++ J) ++ J) ((W ++ X) ++ X) = W2_diag (I ++ J) (W ++ X) := by
  have h3 : (I ++ J).length = (W ++ X).length := by simp [h1, h2]
  rw [W2_diag_eq_W2_fold _ _ (by simp [h1, h2]), W2_diag_eq_W2_fold _ _ h3,
    List.zip_append h3, List.zip_append h1, W2_fold_append, W2_fold_append, W2_fold_twice]

/-! ## What assembly stores -/

/-- The state `compute_matrices` stores when it ends normally, in terms of the result `acc`
of `append_energies`. -/
theorem compute_matrices_ok_eq {n0 nr0 : ℕ} (c : Collaborators) (options : Options)
    (V : MatrixX3 n) (T : List (Fin 4 → Fin n)) (old : Data n0 nr0) (acc : EnergyAcc)
    (hacc : append_energies c V T old.indices old.rest_volumes old.weights [] = acc)
    (r : (nr : ℕ) × Data n nr) (h : compute_matrices c options V T old = Outcome.ok r) :
    ∃ last amax,
      acc.D_triplets.getLast? = some last ∧
      r = ⟨last.row + 1,
        { x := V
          v := if h : n0 = n then h ▸ old.v else 0
          x_start := V
          m := if h : n0 = n then h ▸ old.m else compute_masses V T
          z := 0
          u := 0
          M_xbar := 0
          Dx := ⟨n, 0⟩
          D := SparseMatrix.toMatrix
            { rows := last.row + 1, cols := n, entries := acc.D_triplets } n
          Dt := (SparseMatrix.toMatrix
            { rows := last.row + 1, cols := n, entries := acc.D_triplets } n).transpose
          DtW2 := compute_dt2 options •
            (SparseMatrix.toMatrix
              { rows := last.row + 1, cols := n, entries := acc.D_triplets } n).transpose *
            Matrix.diagonal fun k : Fin (last.row + 1) => W2_diag acc.indices acc.weights k
          A := (compute_dt2 options •
            (SparseMatrix.toMatrix
              { rows := last.row + 1, cols := n, entries := acc.D_triplets } n).transpose *
            Matrix.diagonal fun k : Fin (last.row + 1) => W2_diag acc.indices acc.weights k) *
            SparseMatrix.toMatrix
              { rows := last.row + 1, cols := n, entries := acc.D_triplets } n
            + Matrix.diagonal (if h : n0 = n then h ▸ old.m else compute_masses V T)
          ldltA := c.ldlt ((compute_dt2 options •
            (SparseMatrix.toMatrix
              { rows := last.row + 1, cols := n, entries := acc.D_triplets } n).transpose *
            Matrix.diagonal fun k : Fin (last.row + 1) => W2_diag acc.indices acc.weights k) *
            SparseMatrix.toMatrix
              { rows := last.row + 1, cols := n, entries := acc.D_triplets } n
            + Matrix.diagonal (if h : n0 = n then h ▸ old.m else compute_masses V T))
          b := 0
          spring_k := options.mult_k * amax
          l := [0]
          K := fun _ => { rows := 1, cols := n, entries := [] }
          tets := T
          indices := acc.indices
          rest_volumes := acc.rest_volumes
          weights := acc.weights }⟩ := by
  subst hacc
  unfold compute_matrices at h
  simp only at h
  split at h
  · exact absurd h (by simp)
  · rename_i last hlast
    split at h
    · exact absurd h (by simp)
    · rename_i amax hamax
      injection h with h
      exact ⟨last, amax, hlast, h.symm⟩

/-! ## The assembled system matrix -/

theorem assembled_symm {k : ℕ} (D : Matrix (Fin k) (Fin n) ℚ) (w : Fin k → ℚ)
    (m : Fin n → ℚ) (a : ℚ) :
    ((a • D.transpose * Matrix.diagonal w) * D + Matrix.diagonal m).IsSymm := by
  apply Matrix.IsSymm.add
  · unfold Matrix.IsSymm
    rw [Matrix.transpose_mul, Matrix.transpose_mul, Matrix.transpose_smul,
      Matrix.transpose_transpose, Matrix.diagonal_transpose, Matrix.smul_mul, Matrix.smul_mul,
      Matrix.mul_smul, Matrix.mul_smul, Matrix.mul_assoc]
  · exact Matrix.isSymm_diagonal m

theorem assembled_quadratic {k : ℕ} (D : Matrix (Fin k) (Fin n) ℚ) (w : Fin k → ℚ)
    (m : Fin n → ℚ) (a : ℚ) (v : Fin n → ℚ) :
    Matrix.dotProduct v (((a • D.transpose * Matrix.diagonal w) * D +
      Matrix.diagonal m).mulVec v) =
      a * ∑ j : Fin k, w j * (D.mulVec v j * D.mulVec v j) + ∑ i : Fin n, m i * (v i * v i) := by
  rw [Matrix.add_mulVec, Matrix.dotProduct_add, ← Matrix.mulVec_mulVec, Matrix.smul_mul,
    Matrix.smul_mulVec_assoc, Matrix.dotProduct_smul, ← Matrix.mulVec_mulVec,
    Matrix.dotProduct_mulVec, Matrix.vecMul_transpose, smul_eq_mul]
  congr 1
  · congr 1
    unfold Matrix.dotProduct
    refine Finset.sum_congr rfl fun j _ => ?_
    rw [Matrix.mulVec_diagonal]
    ring
  · unfold Matrix.dotProduct
    refine Finset.sum_congr rfl fun i _ => ?_
    rw [Matrix.mulVec_diagonal]
    ring

theorem assembled_pd {k : ℕ} (D : Matrix (Fin k) (Fin n) ℚ) (w : Fin k → ℚ)
    (m : Fin n → ℚ) (a : ℚ) (ha : 0 ≤ a) (hw : ∀ j, 0 ≤ w j) (hm : ∀ i, 0 < m i)
    (v : Fin n → ℚ) (hv : v ≠ 0) :
    0 < Matrix.dotProduct v (((a • D.transpose * Matrix.diagonal w) * D +
      Matrix.diagonal m).mulVec v) := by
  rw [assembled_quadratic]
  have h1 : 0 ≤ a * ∑ j : Fin k, w j * (D.mulVec v j * D.mulVec v j) :=
    mul_nonneg ha (Finset.sum_nonneg fun j _ => mul_nonneg (hw j) (mul_self_nonneg _))
  have h2 : 0 < ∑ i : Fin n, m i * (v i * v i) := by
    obtain ⟨i, hi⟩ : ∃ i, v i ≠ 0 := by
      by_contra hc
      push_neg at hc
      exact hv (funext hc)
    exact Finset.sum_pos' (fun j _ => mul_nonneg (le_of_lt (hm j)) (mul_self_nonneg _))
      ⟨i, Finset.mem_univ i, mul_pos (hm i) (mul_self_pos.2 hi)⟩
  linarith

theorem W2_diag_nonneg (I : List (ℤ × ℤ)) (W : List ℚ) (r : ℤ) : 0 ≤ W2_diag I W r := by
  unfold W2_diag
  have h : ∀ (L : List ℕ) (w : ℤ → ℚ), (∀ r, 0 ≤ w r) → ∀ r,
      0 ≤ L.foldl
        (fun w i =>
          let idx := I.getD i (0, 0)
          fun r => if idx.1 ≤ r ∧ r < idx.1 + idx.2 then W.getD i 0 * W.getD i 0 else w r)
        w r := by
    intro L
    induction L with
    | nil => intro w hw r; exact hw r
    | cons i L ih =>
      intro w hw r
      rw [List.foldl_cons]
      apply ih
      intro r1
      show 0 ≤ if (I.getD i (0, 0)).1 ≤ r1 ∧ r1 < (I.getD i (0, 0)).1 + (I.getD i (0, 0)).2
        then W.getD i 0 * W.getD i 0 else w r1
      split
      · exact mul_self_nonneg _
      · exact hw r1
  exact h _ _ (fun _ => le_refl 0) r

theorem compute_dt2_pos (options : Options) : 0 < compute_dt2 options := by
  unfold compute_dt2
  simp only
  split
  · exact zero_lt_one
  · rename_i h
    exact not_le.1 h

/-! ## Initialisation -/

theorem init_ok_iff {n0 nr0 : ℕ} (c : Collaborators) (V : MatrixX3 n)
    (T : List (Fin 4 → Fin n)) (o : Options) (d : Data n0 nr0) (r : (nr : ℕ) × Data n nr) :
    init c V T (some o) (some d) = Outcome.ok (true, r) ↔
      compute_matrices c o V T d = Outcome.ok r := by
  cases h : compute_matrices c o V T d <;> simp [init, h]

theorem compute_matrices_ok_ne_zero {n0 nr0 : ℕ} (c : Collaborators) (options : Options)
    (V : MatrixX3 n) (T : List (Fin 4 → Fin n)) (old : Data n0 nr0)
    (r : (nr : ℕ) × Data n nr) (h : compute_matrices c options V T old = Outcome.ok r) :
    n ≠ 0 := by
  intro hn
  subst hn
  unfold compute_matrices at h
  simp only at h
  split at h
  · exact absurd h (by simp)
  · split at h
    · exact absurd h (by simp)
    · rename_i amax hamax
      simp [maxCoeff] at hamax

theorem append_energies_lengths (c : Collaborators) (x : MatrixX3 n)
    (tets : List (Fin 4 → Fin n)) :
    (append_energies c x tets [] [] [] []).indices.length =
      (append_energies c x tets [] [] [] []).rest_volumes.length ∧
    (append_energies c x tets [] [] [] []).indices.length =
      (append_energies c x tets [] [] [] []).weights.length ∧
    (append_energies c x tets [] [] [] []).indices.length = (kept_tets c x 0 tets).length := by
  have hfold := append_energies_fold_inv c x tets
    { indices := [], rest_volumes := [], weights := [], D_triplets := [],
      energy_index := 0 } rfl rfl trivial rfl
  have hacc : append_energies c x tets [] [] [] [] =
      tets.foldl (append_energies_step c x)
        { indices := [], rest_volumes := [], weights := [], D_triplets := [],
          energy_index := 0 } := by
    unfold append_energies
    simp only
    split
    · rename_i h
      rw [List.length_eq_zero.1 h]
      rfl
    · rfl
  rw [hacc]
  obtain ⟨g1, g2, -, -, g5⟩ := hfold
  simp only [List.length_nil, zero_add] at g5
  exact ⟨g1, g2, g5⟩

/-- C15: `Solver::init` ends with the thrown error `init: data/options null` whenever the
state handle or the options handle is absent; with the options absent and the state present
the state object is left as it was (the test precedes the first assignment); with both
present and a normal end of `compute_matrices`, `init` returns `true` and the state holds
`x = V` and `tets = T`. -/
theorem init_handles {n0 nr0 : ℕ} (c : Collaborators) (V : MatrixX3 n)
    (T : List (Fin 4 → Fin n)) (d : Data n0 nr0) :
    (∀ o : Option Options, init c V T o (none : Option (Data n0 nr0)) =
      Outcome.runtime_error "init: data/options null") ∧
    init c V T none (some d) = Outcome.runtime_error "init: data/options null" ∧
    init_state c V T none (some d) = some ⟨n0, nr0, d⟩ ∧
    (∀ (o : Options) (r : (nr : ℕ) × Data n nr),
      compute_matrices c o V T d = Outcome.ok r →
        init c V T (some o) (some d) = Outcome.ok (true, r) ∧
        init_state c V T (some o) (some d) = some ⟨n, r.1, r.2⟩ ∧
        r.2.x = V ∧ r.2.tets = T) := by
  refine ⟨fun o => by cases o <;> rfl, rfl, rfl, fun o r h => ?_⟩
  refine ⟨(init_ok_iff c V T o d r).2 h, ?_, ?_⟩
  · unfold init_state
    simp only [h]
  · obtain ⟨last, amax, -, rfl⟩ := compute_matrices_ok_eq c o V T d _ rfl r h
    exact ⟨rfl, rfl⟩

/-- The second of two calls of `init` on the same mesh also ends normally. -/
theorem compute_matrices_again {n0 nr0 : ℕ} (c : Collaborators) (o : Options)
    (V : MatrixX3 n) (T : List (Fin 4 → Fin n)) (old : Data n0 nr0)
    (r1 : (nr : ℕ) × Data n nr) (h1 : compute_matrices c o V T old = Outcome.ok r1) :
    ∃ r2, compute_matrices c o V T r1.2 = Outcome.ok r2 := by
  obtain ⟨last, amax, hl, -⟩ := compute_matrices_ok_eq c o V T old _
    (append_energies_onto c V T old.indices old.rest_volumes old.weights) r1 h1
  apply compute_matrices_ok_of_triplets c o V T r1.2
    (compute_matrices_ok_ne_zero c o V T old r1 h1)
  rw [append_energies_onto]
  intro hnil
  simp only at hl
  rw [hnil] at hl
  simp at hl

/-- C14: re-initialisation determinism. When `init` ends normally on a mesh `(V, T)` and
options, from a state whose `indices` and `weights` lists have the same length (as they have
in a fresh state and after every `init`), a second `init` on the state it left, with the same
`V`, `T` and options, ends normally too and leaves the same reduction operator `D` (row
count included), the same system matrix `A` and the same factorization. -/
theorem init_twice_same_matrices {n0 nr0 : ℕ} (c : Collaborators) (o : Options)
    (V : MatrixX3 n) (T : List (Fin 4 → Fin n)) (old : Data n0 nr0)
    (hold : old.indices.length = old.weights.length)
    (r1 : (nr : ℕ) × Data n nr)
    (h1 : init c V T (some o) (some old) = Outcome.ok (true, r1)) :
    ∃ r2, init c V T (some o) (some r1.2) = Outcome.ok (true, r2) ∧
      (⟨r2.1, r2.2.D⟩ : (k : ℕ) × Matrix (Fin k) (Fin n) ℚ) = ⟨r1.1, r1.2.D⟩ ∧
      r2.2.A = r1.2.A ∧ r2.2.ldltA = r1.2.ldltA := by
  have hc1 := (init_ok_iff c V T o old r1).1 h1
  obtain ⟨r2, hc2⟩ := compute_matrices_again c o V T old r1 hc1
  refine ⟨r2, (init_ok_iff c V T o r1.2 r2).2 hc2, ?_⟩
  obtain ⟨last, amax, hl, rfl⟩ := compute_matrices_ok_eq c o V T old _
    (append_energies_onto c V T old.indices old.rest_volumes old.weights) r1 hc1
  obtain ⟨last2, amax2, hl2, rfl⟩ := compute_matrices_ok_eq c o V T _ _
    (append_energies_onto c V T _ _ _) r2 hc2
  simp only at hl hl2
  have hlast : last2 = last := by
    rw [hl] at hl2
    injection hl2 with h
    exact h.symm
  subst hlast
  have hW := W2_diag_twice old.indices (append_energies c V T [] [] [] []).indices
    old.weights (append_energies c V T [] [] [] []).weights hold
    (append_energies_lengths c V T).2.1
  have hA : ∀ (m : Fin n → ℚ),
      (compute_dt2 o •
        (SparseMatrix.toMatrix { rows := last2.row + 1, cols := n, entries :=
          (append_energies c V T [] [] [] []).D_triplets } n).transpose *
        Matrix.diagonal fun k : Fin (last2.row + 1) =>
          W2_diag ((old.indices ++ (append_energies c V T [] [] [] []).indices) ++
              (append_energies c V T [] [] [] []).indices)
            ((old.weights ++ (append_energies c V T [] [] [] []).weights) ++
              (append_energies c V T [] [] [] []).weights) k) *
        SparseMatrix.toMatrix { rows := last2.row + 1, cols := n, entries :=
          (append_energies c V T [] [] [] []).D_triplets } n + Matrix.diagonal m =
      (compute_dt2 o •
        (SparseMatrix.toMatrix { rows := last2.row + 1, cols := n, entries :=
          (append_energies c V T [] [] [] []).D_triplets } n).transpose *
        Matrix.diagonal fun k : Fin (last2.row + 1) =>
          W2_diag (old.indices ++ (append_energies c V T [] [] [] []).indices)
            (old.weights ++ (append_energies c V T [] [] [] []).weights) k) *
        SparseMatrix.toMatrix { rows := last2.row + 1, cols := n, entries :=
          (append_energies c V T [] [] [] []).D_triplets } n + Matrix.diagonal m := by
    intro m
    rw [hW]
  refine ⟨rfl, ?_, ?_⟩
  · simp only [dite_true]
    exact hA _
  · simp only [dite_true]
    rw [hA]


theorem getD_append_self {α : Type} (l : List α) (d : α) (i : ℕ) (hi : i < l.length) :
    (l ++ l).getD (l.length + i) d = (l ++ l).getD i d := by
  rw [List.getD_append_right _ _ _ _ (by omega), List.getD_append _ _ _ _ hi]
  congr 1
  omega

theorem compute_matrices_ok_lists {n0 nr0 : ℕ} (c : Collaborators) (options : Options)
    (V : MatrixX3 n) (T : List (Fin 4 → Fin n)) (old : Data n0 nr0)
    (r : (nr : ℕ) × Data n nr) (h : compute_matrices c options V T old = Outcome.ok r) :
    r.2.indices =
      (append_energies c V T old.indices old.rest_volumes old.weights []).indices ∧
    r.2.rest_volumes =
      (append_energies c V T old.indices old.rest_volumes old.weights []).rest_volumes ∧
    r.2.weights =
      (append_energies c V T old.indices old.rest_volumes old.weights []).weights := by
  obtain ⟨last, amax, -, rfl⟩ := compute_matrices_ok_eq c options V T old _ rfl r h
  exact ⟨rfl, rfl, rfl⟩

/-- C20: per-element metadata is never reset by initialisation. After a first
`Solver::init` on a fresh state that ends normally, `indices`, `rest_volumes` and `weights`
each have `k` entries, `k` the number of elements with positive reported dimension; a second
`init` on that state with the same mesh ends normally and leaves each list as the first one
followed by itself, `2k` entries, entry `k + i` equal to entry `i`; so `solve_local_step`
runs the energy-term update over the range `0 .. 2k`, twice with the offset, rest volume and
weight of each element. -/
theorem init_twice_metadata (c : Collaborators) (o : Options) (V : MatrixX3 n)
    (T : List (Fin 4 → Fin n)) (r1 : (nr : ℕ) × Data n nr)
    (h1 : init c V T (some o) (some Data.fresh) = Outcome.ok (true, r1)) :
    r1.2.indices.length = (kept_tets c V 0 T).length ∧
    r1.2.rest_volumes.length = (kept_tets c V 0 T).length ∧
    r1.2.weights.length = (kept_tets c V 0 T).length ∧
    ∃ r2, init c V T (some o) (some r1.2) = Outcome.ok (true, r2) ∧
      r2.2.indices = r1.2.indices ++ r1.2.indices ∧
      r2.2.rest_volumes = r1.2.rest_volumes ++ r1.2.rest_volumes ∧
      r2.2.weights = r1.2.weights ++ r1.2.weights ∧
      r2.2.indices.length = 2 * (kept_tets c V 0 T).length ∧
      r2.2.rest_volumes.length = 2 * (kept_tets c V 0 T).length ∧
      r2.2.weights.length = 2 * (kept_tets c V 0 T).length ∧
      (∀ c1 : Collaborators, solve_local_step c1 r2.2 =
        (List.range (2 * (kept_tets c V 0 T).length)).foldl (parallel_zu_update c1) r2.2) ∧
      (∀ i, i < (kept_tets c V 0 T).length →
        r2.2.indices.getD ((kept_tets c V 0 T).length + i) (0, 0) =
          r2.2.indices.getD i (0, 0) ∧
        r2.2.rest_volumes.getD ((kept_tets c V 0 T).length + i) 0 =
          r2.2.rest_volumes.getD i 0 ∧
        r2.2.weights.getD ((kept_tets c V 0 T).length + i) 0 = r2.2.weights.getD i 0) := by
  have hc1 := (init_ok_iff c V T o Data.fresh r1).1 h1
  obtain ⟨r2, hc2⟩ := compute_matrices_again c o V T Data.fresh r1 hc1
  obtain ⟨a1, a2, a3⟩ := compute_matrices_ok_lists c o V T Data.fresh r1 hc1
  obtain ⟨b1, b2, b3⟩ := compute_matrices_ok_lists c o V T r1.2 r2 hc2
  rw [append_energies_onto] at b1 b2 b3
  simp only at b1 b2 b3
  have e : append_energies c V T Data.fresh.indices Data.fresh.rest_volumes
      Data.fresh.weights [] = append_energies c V T [] [] [] [] := rfl
  rw [e] at a1 a2 a3
  rw [← a1] at b1
  rw [← a2] at b2
  rw [← a3] at b3
  obtain ⟨g1, g2, g3⟩ := append_energies_lengths c V T
  rw [← a1] at g1 g2 g3
  rw [← a2] at g1
  rw [← a3] at g2
  have k1 : r1.2.rest_volumes.length = (kept_tets c V 0 T).length := by rw [← g1, g3]
  have k2 : r1.2.weights.length = (kept_tets c V 0 T).length := by rw [← g2, g3]
  refine ⟨g3, k1, k2, r2, (init_ok_iff c V T o _ _).2 hc2, b1, b2, b3, ?_, ?_, ?_, ?_, ?_⟩
  · rw [b1, List.length_append, g3]; omega
  · rw [b2, List.length_append, k1]; omega
  · rw [b3, List.length_append, k2]; omega
  · intro c1
    unfold solve_local_step
    rw [b2, List.length_append, k1, two_mul]
  · intro i hi
    rw [b1, b2, b3]
    refine ⟨?_, ?_, ?_⟩
    · rw [← g3]
      exact getD_append_self _ _ i (by rw [g3]; exact hi)
    · rw [← k1]
      exact getD_append_self _ _ i (by rw [k1]; exact hi)
    · rw [← k2]
      exact getD_append_self _ _ i (by rw [k2]; exact hi)


/-! ## The weight diagonal and the system matrix -/

theorem ChainFrom_lower_mem (l : List (ℤ × ℤ)) :
    ∀ s : ℤ, ChainFrom s l → ∀ p ∈ l, s ≤ p.1 := by
  induction l with
  | nil => intro s _ p hp; cases hp
  | cons q l ih =>
    intro s hc p hp
    obtain ⟨h1, h2, h3⟩ := hc
    rcases List.mem_cons.1 hp with h | h
    · rw [h, h1]
    · have := ih _ h3 p h
      omega

/-- On a chain of index pairs the weight loop leaves `weight[i]²` on the rows of element
`i`. -/
theorem W2_fold_chain (I : List (ℤ × ℤ)) :
    ∀ (s : ℤ) (W : List ℚ) (w : ℤ → ℚ), ChainFrom s I → I.length = W.length →
      ∀ i, i < I.length → ∀ r : ℤ, (I.getD i (0, 0)).1 ≤ r →
        r < (I.getD i (0, 0)).1 + (I.getD i (0, 0)).2 →
        W2_fold w (I.zip W) r = W.getD i 0 * W.getD i 0 := by
  induction I with
  | nil => intro s W w _ _ i hi; cases hi
  | cons p I ih =>
    intro s W w hc hlen i hi r hr1 hr2
    cases W with
    | nil => simp at hlen
    | cons q W =>
      obtain ⟨h1, h2, h3⟩ := hc
      have hlen1 : I.length = W.length := by simpa using hlen
      have hcons : W2_fold w ((p :: I).zip (q :: W)) =
          W2_fold (fun r => if p.1 ≤ r ∧ r < p.1 + p.2 then q * q else w r) (I.zip W) := rfl
      rw [hcons]
      cases i with
      | zero =>
        simp only [List.getD_cons_zero] at hr1 hr2 ⊢
        rw [W2_fold_not_covered]
        · simp only [if_pos (And.intro hr1 hr2)]
        · intro e he hcov
          have hmem : e.1 ∈ I := (List.of_mem_zip (a := e.1) (b := e.2) he).1
          have := ChainFrom_lower_mem I _ h3 e.1 hmem
          omega
      | succ i =>
        simp only [List.getD_cons_succ] at hr1 hr2 ⊢
        exact ih _ W _ h3 hlen1 i (by simpa using hi) r hr1 hr2

theorem append_energies_chain (c : Collaborators) (x : MatrixX3 n)
    (tets : List (Fin 4 → Fin n)) :
    ChainFrom 0 (append_energies c x tets [] [] [] []).indices := by
  have hfold := append_energies_fold_inv c x tets
    { indices := [], rest_volumes := [], weights := [], D_triplets := [],
      energy_index := 0 } rfl rfl trivial rfl
  have hacc : append_energies c x tets [] [] [] [] =
      tets.foldl (append_energies_step c x)
        { indices := [], rest_volumes := [], weights := [], D_triplets := [],
          energy_index := 0 } := by
    unfold append_energies
    simp only
    split
    · rename_i h
      rw [List.length_eq_zero.1 h]
      rfl
    · rfl
  rw [hacc]
  exact hfold.2.2.1

/-- C16: the system matrix stored by `compute_matrices` is
`A = dt²·Dᵗ·W²·D + diag(m)`, with `W²` the diagonal written by the weight loop, which after
an assembly from empty metadata lists holds `weight²` of each element on the rows of that
element; `A` is symmetric for every `D`, weights and masses, and positive definite whenever
every vertex mass is strictly positive. -/
theorem compute_matrices_A_spd {n0 nr0 : ℕ} (c : Collaborators) (options : Options)
    (V : MatrixX3 n) (T : List (Fin 4 → Fin n)) (old : Data n0 nr0)
    (r : (nr : ℕ) × Data n nr) (h : compute_matrices c options V T old = Outcome.ok r) :
    r.2.A = (compute_dt2 options • r.2.D.transpose *
        Matrix.diagonal (fun k : Fin r.1 => W2_diag r.2.indices r.2.weights k)) * r.2.D +
      Matrix.diagonal r.2.m ∧
    (old.indices = [] → old.weights = [] →
      ∀ i, i < r.2.indices.length → ∀ row : ℤ, (r.2.indices.getD i (0, 0)).1 ≤ row →
        row < (r.2.indices.getD i (0, 0)).1 + (r.2.indices.getD i (0, 0)).2 →
        W2_diag r.2.indices r.2.weights row = r.2.weights.getD i 0 * r.2.weights.getD i 0) ∧
    r.2.A.IsSymm ∧
    ((∀ i, 0 < r.2.m i) →
      ∀ v : Fin n → ℚ, v ≠ 0 → 0 < Matrix.dotProduct v (r.2.A.mulVec v)) := by
  have hW : old.indices = [] → old.weights = [] →
      ∀ i, i < r.2.indices.length → ∀ row : ℤ, (r.2.indices.getD i (0, 0)).1 ≤ row →
        row < (r.2.indices.getD i (0, 0)).1 + (r.2.indices.getD i (0, 0)).2 →
        W2_diag r.2.indices r.2.weights row =
          r.2.weights.getD i 0 * r.2.weights.getD i 0 := by
    intro hI hWt
    obtain ⟨a1, -, a3⟩ := compute_matrices_ok_lists c options V T old r h
    rw [append_energies_onto, hI, List.nil_append] at a1
    rw [append_energies_onto, hWt, List.nil_append] at a3
    simp only at a1 a3
    rw [a1, a3, W2_diag_eq_W2_fold _ _ (append_energies_lengths c V T).2.1]
    exact W2_fold_chain _ 0 _ _ (append_energies_chain c V T)
      (append_energies_lengths c V T).2.1
  obtain ⟨last, amax, -, rfl⟩ := compute_matrices_ok_eq c options V T old _ rfl r h
  refine ⟨rfl, hW, assembled_symm _ _ _ _, fun hm v hv => ?_⟩
  exact assembled_pd _ _ _ _ (le_of_lt (compute_dt2_pos options))
    (fun j => W2_diag_nonneg _ _ _) hm v hv

/-! ## Instances on the unit tetrahedron -/

theorem compute_matrices_ok_m {n0 nr0 : ℕ} (c : Collaborators) (options : Options)
    (V : MatrixX3 n) (T : List (Fin 4 → Fin n)) (old : Data n0 nr0)
    (r : (nr : ℕ) × Data n nr) (h : compute_matrices c options V T old = Outcome.ok r) :
    r.2.m = if h : n0 = n then h ▸ old.m else compute_masses V T := by
  obtain ⟨last, amax, -, rfl⟩ := compute_matrices_ok_eq c options V T old _ rfl r h
  rfl

theorem Example_tet_det : (tet_edges Example.tetX Example.unitTet).det = 1 := by
  simp [Matrix.det_fin_three, tet_edges, Example.tetX, Example.unitTet]

theorem Example_tet_triplets :
    (append_energies Example.collab Example.tetX [Example.unitTet] Data.fresh.indices
      Data.fresh.rest_volumes Data.fresh.weights []).D_triplets ≠ [] := by
  simp [append_energies, append_energies_step, Example.collab, Example.init_tet,
    Example_tet_det, Data.fresh]

theorem Example_tet_kept :
    kept_tets Example.collab Example.tetX 0 [Example.unitTet] = [Example.unitTet] := by
  simp [kept_tets, Example.collab, Example.init_tet, Example_tet_det]

theorem Example_tet_ok :
    ∃ r, compute_matrices Example.collab Example.options Example.tetX [Example.unitTet]
      Data.fresh = Outcome.ok r :=
  compute_matrices_ok_of_triplets Example.collab Example.options Example.tetX
    [Example.unitTet] Data.fresh (by decide) Example_tet_triplets

theorem Example_tet_mass_pos (i : Fin 4) :
    0 < compute_masses Example.tetX [Example.unitTet] i := by
  unfold compute_masses
  rw [compute_masses_fold]
  simp only [List.map_cons, List.map_nil, List.sum_cons, List.sum_nil, add_zero, zero_add,
    tet_mass_eq, Example_tet_det]
  apply Finset.sum_pos'
  · intro j _
    split
    · norm_num
    · exact le_refl 0
  · refine ⟨i, Finset.mem_univ i, ?_⟩
    have hi : Example.unitTet i = i := by
      fin_cases i <;> rfl
    rw [if_pos hi]
    norm_num

theorem Example_tet_masses (r : (nr : ℕ) × Data 4 nr)
    (h : compute_matrices Example.collab Example.options Example.tetX [Example.unitTet]
      Data.fresh = Outcome.ok r) (i : Fin 4) : 0 < r.2.m i := by
  have hm : r.2.m = compute_masses Example.tetX [Example.unitTet] := by
    rw [compute_matrices_ok_m Example.collab Example.options Example.tetX [Example.unitTet]
      Data.fresh r h]
    exact dif_neg (show ¬ (0 : ℕ) = 4 by decide)
  rw [hm]
  exact Example_tet_mass_pos i

/-- Instance of `init_twice_same_matrices`: two calls of `init` on the unit tetrahedron,
the first on a fresh state. -/
theorem init_twice_same_matrices_witness :
    Data.fresh.indices.length = Data.fresh.weights.length ∧
    ∃ r1, init Example.collab Example.tetX [Example.unitTet] (some Example.options)
        (some Data.fresh) = Outcome.ok (true, r1) ∧
      ∃ r2, init Example.collab Example.tetX [Example.unitTet] (some Example.options)
          (some r1.2) = Outcome.ok (true, r2) ∧ r2.2.A = r1.2.A := by
  obtain ⟨r1, h1⟩ := Example_tet_ok
  have hi := (init_ok_iff Example.collab Example.tetX [Example.unitTet] Example.options
    Data.fresh r1).2 h1
  obtain ⟨r2, h2, -, hA, -⟩ := init_twice_same_matrices Example.collab Example.options
    Example.tetX [Example.unitTet] Data.fresh rfl r1 hi
  exact ⟨rfl, r1, hi, r2, h2, hA⟩

/-- Instance of `compute_matrices_A_spd`: on the unit tetrahedron every vertex has mass
`1100/24`, and the assembled `A` is symmetric positive definite. -/
theorem compute_matrices_A_spd_witness :
    ∃ r, compute_matrices Example.collab Example.options Example.tetX [Example.unitTet]
        Data.fresh = Outcome.ok r ∧ r.2.A.IsSymm ∧
      ∀ v : Fin 4 → ℚ, v ≠ 0 → 0 < Matrix.dotProduct v (r.2.A.mulVec v) := by
  obtain ⟨r, h⟩ := Example_tet_ok
  have hs := compute_matrices_A_spd Example.collab Example.options Example.tetX
    [Example.unitTet] Data.fresh r h
  exact ⟨r, h, hs.2.2.1, hs.2.2.2 (Example_tet_masses r h)⟩

/-- Instance of `init_twice_metadata`: on the unit tetrahedron the lists have one entry after
the first `init` and two after the second. -/
theorem init_twice_metadata_witness :
    ∃ r1, init Example.collab Example.tetX [Example.unitTet] (some Example.options)
        (some Data.fresh) = Outcome.ok (true, r1) ∧ r1.2.indices.length = 1 ∧
      ∃ r2, init Example.collab Example.tetX [Example.unitTet] (some Example.options)
          (some r1.2) = Outcome.ok (true, r2) ∧ r2.2.indices.length = 2 := by
  obtain ⟨r1, h1⟩ := Example_tet_ok
  have hi := (init_ok_iff Example.collab Example.tetX [Example.unitTet] Example.options
    Data.fresh r1).2 h1
  obtain ⟨k1, -, -, r2, h2, -, -, -, k2, -⟩ := init_twice_metadata Example.collab
    Example.options Example.tetX [Example.unitTet] r1 hi
  rw [Example_tet_kept] at k1 k2
  exact ⟨r1, hi, k1, r2, h2, k2⟩

/-- Instance of `init_handles`: on the unit tetrahedron and a fresh state, `init` throws
without options and stores the vertices with them. -/
theorem init_handles_witness :
    init Example.collab Example.tetX [Example.unitTet] none (some Data.fresh) =
      Outcome.runtime_error "init: data/options null" ∧
    ∃ r, init Example.collab Example.tetX [Example.unitTet] (some Example.options)
        (some Data.fresh) = Outcome.ok (true, r) ∧ r.2.x = Example.tetX := by
  obtain ⟨r, h⟩ := Example_tet_ok
  have hs := init_handles Example.collab Example.tetX [Example.unitTet] Data.fresh
  obtain ⟨g1, -, g2, -⟩ := hs.2.2.2 Example.options r h
  exact ⟨hs.2.1, r, g1, g2⟩

end Solver

end admmpd
